/-
  Verification of the gorilla-warfare world-streaming core.

  Shallow embedding of:
    - src/app/components/collision/CollisionManager.ts
    - src/app/components/terrain/ChunkManager.ts
    - src/app/components/pathfinding/PathfindingManager.ts

  Conventions of the embedding:
    - JS numbers are modelled as rationals (ℚ).  Every numeric comparison the
      source performs on a `Math.sqrt` value is modelled by its exact
      squared-form equivalent over ℚ (`sqrt s ≤ r ↔ 0 ≤ r ∧ s ≤ r²`,
      `sqrt s < m ↔ 0 < m ∧ s < m²`, both valid for `s ≥ 0`), so queries stay
      computable; bridge lemmas relate these forms to `Real.sqrt`.
    - A JS `Map` is modelled as an association list with JS-Map semantics:
      `mget` returns the binding of the key, `mset` overwrites in place or
      appends, `mdel` removes the binding.  String keys built with template
      literals from integers (`"x,z"`) are modelled by the integer tuples
      themselves (that formatting is injective on integer tuples).
    - `CollisionResult` is modelled as `Option CollisionBounds` (`none` = no
      hit, `some obj` = hit on `obj`).  The `distance`/`normal` fields of the
      source result are irrational reals and are inspected by no claim, so
      they are not carried.
    - The optional `bounds` box field of `CollisionBounds` is read by no
      insert/remove/query code path and is omitted.
-/
import Mathlib

set_option maxRecDepth 8000
set_option maxHeartbeats 1000000

/- Rational arithmetic must evaluate inside `decide` witnesses; the Batteries
definitions are marked irreducible, which only hides them from unification,
so restoring the default reducibility is sound and lets `decide` reduce. -/
set_option allowUnsafeReducibility true
attribute [semireducible] Rat.mul Rat.inv Rat.add Rat.sub Rat.ofScientific

/-! ## Association-list maps with JS `Map` semantics -/

/-- Lookup, as JS `Map.get`. -/
def mget {α β : Type} [DecidableEq α] : List (α × β) → α → Option β
  | [], _ => none
  | p :: m, k => if p.1 = k then some p.2 else mget m k

/-- Binding update, as JS `Map.set`: overwrite in place, else append. -/
def mset {α β : Type} [DecidableEq α] : List (α × β) → α → β → List (α × β)
  | [], k, v => [(k, v)]
  | p :: m, k, v => if p.1 = k then (k, v) :: m else p :: mset m k v

/-- Binding removal, as JS `Map.delete`. -/
def mdel {α β : Type} [DecidableEq α] : List (α × β) → α → List (α × β)
  | [], _ => []
  | p :: m, k => if p.1 = k then mdel m k else p :: mdel m k

section MapLemmas

variable {α β : Type} [DecidableEq α]

theorem mget_mset_self (m : List (α × β)) (k : α) (v : β) :
    mget (mset m k v) k = some v := by
  induction m with
  | nil => simp [mget, mset]
  | cons p m ih =>
    by_cases h : p.1 = k
    · simp [mset, h, mget]
    · simp [mset, h, mget, ih]

theorem mget_mset_ne (m : List (α × β)) (k k2 : α) (v : β) (h : k2 ≠ k) :
    mget (mset m k v) k2 = mget m k2 := by
  have hk : ¬ (k = k2) := fun hh => h hh.symm
  induction m with
  | nil =>
    show mget [(k, v)] k2 = none
    simp only [mget, hk, if_false]
  | cons p m ih =>
    by_cases hp : p.1 = k
    · have hp2 : ¬ (p.1 = k2) := fun hh => h (hh.symm.trans hp)
      show mget (if p.1 = k then (k, v) :: m else p :: mset m k v) k2 = _
      rw [if_pos hp]
      show (if k = k2 then some v else mget m k2) = _
      rw [if_neg hk]
      show _ = (if p.1 = k2 then some p.2 else mget m k2)
      rw [if_neg hp2]
    · show mget (if p.1 = k then (k, v) :: m else p :: mset m k v) k2 = _
      rw [if_neg hp]
      show (if p.1 = k2 then some p.2 else mget (mset m k v) k2)
        = (if p.1 = k2 then some p.2 else mget m k2)
      rw [ih]

theorem mget_mdel_self (m : List (α × β)) (k : α) :
    mget (mdel m k) k = none := by
  induction m with
  | nil => simp [mget, mdel]
  | cons p m ih =>
    by_cases h : p.1 = k
    · show mget (if p.1 = k then mdel m k else p :: mdel m k) k = none
      rw [if_pos h]
      exact ih
    · show mget (if p.1 = k then mdel m k else p :: mdel m k) k = none
      rw [if_neg h]
      show (if p.1 = k then some p.2 else mget (mdel m k) k) = none
      rw [if_neg h]
      exact ih

theorem mget_mdel_ne (m : List (α × β)) (k k2 : α) (h : k2 ≠ k) :
    mget (mdel m k) k2 = mget m k2 := by
  induction m with
  | nil => simp [mget, mdel]
  | cons p m ih =>
    by_cases hp : p.1 = k
    · have hp2 : ¬ (p.1 = k2) := fun hh => h (hh.symm.trans hp)
      show mget (if p.1 = k then mdel m k else p :: mdel m k) k2 = _
      rw [if_pos hp]
      show _ = (if p.1 = k2 then some p.2 else mget m k2)
      rw [if_neg hp2]
      exact ih
    · show mget (if p.1 = k then mdel m k else p :: mdel m k) k2 = _
      rw [if_neg hp]
      show (if p.1 = k2 then some p.2 else mget (mdel m k) k2)
        = (if p.1 = k2 then some p.2 else mget m k2)
      rw [ih]

/-- Members of a map are found by lookup at their own key, provided the keys
are distinct. -/
theorem mget_isSome_of_mem (m : List (α × β)) (p : α × β) (h : p ∈ m) :
    (mget m p.1).isSome := by
  induction m with
  | nil => cases h
  | cons q m ih =>
    rcases List.mem_cons.mp h with h1 | h2
    · subst h1; simp [mget]
    · by_cases hq : q.1 = p.1 <;> simp [mget, hq, ih h2]

/-- Keys of a map, in order. -/
def mkeys {α β : Type} (m : List (α × β)) : List α := m.map (fun p => p.1)

/-- Maps whose keys are pairwise distinct (the invariant every JS `Map`
satisfies). -/
def NodupKeys {α β : Type} (m : List (α × β)) : Prop := (mkeys m).Nodup

theorem nodupKeys_nil {α β : Type} : NodupKeys ([] : List (α × β)) := by
  simp [NodupKeys, mkeys]

theorem mem_of_mem_mset (m : List (α × β)) (k : α) (v : β) (q : α × β)
    (hq : q ∈ mset m k v) : q ∈ m ∨ q = (k, v) := by
  induction m with
  | nil =>
    simp only [mset, List.mem_singleton] at hq
    exact Or.inr hq
  | cons r m ih =>
    by_cases hr : r.1 = k
    · rw [show mset (r :: m) k v = (k, v) :: m by simp [mset, hr]] at hq
      rcases List.mem_cons.mp hq with h1 | h1
      · exact Or.inr h1
      · exact Or.inl (List.mem_cons_of_mem _ h1)
    · rw [show mset (r :: m) k v = r :: mset m k v by simp [mset, hr]] at hq
      rcases List.mem_cons.mp hq with h1 | h1
      · exact Or.inl (h1 ▸ List.mem_cons_self _ _)
      · rcases ih h1 with h2 | h2
        · exact Or.inl (List.mem_cons_of_mem _ h2)
        · exact Or.inr h2

theorem mem_of_mem_mdel (m : List (α × β)) (k : α) (q : α × β)
    (hq : q ∈ mdel m k) : q ∈ m := by
  induction m with
  | nil => simp [mdel] at hq
  | cons r m ih =>
    by_cases hr : r.1 = k
    · rw [show mdel (r :: m) k = mdel m k by simp [mdel, hr]] at hq
      exact List.mem_cons_of_mem _ (ih hq)
    · rw [show mdel (r :: m) k = r :: mdel m k by simp [mdel, hr]] at hq
      rcases List.mem_cons.mp hq with h1 | h1
      · exact h1 ▸ List.mem_cons_self _ _
      · exact List.mem_cons_of_mem _ (ih h1)

theorem nodupKeys_mset (m : List (α × β)) (k : α) (v : β) (h : NodupKeys m) :
    NodupKeys (mset m k v) := by
  induction m with
  | nil => simp [mset, NodupKeys, mkeys]
  | cons p m ih =>
    simp only [NodupKeys, mkeys, List.map_cons, List.nodup_cons] at h
    by_cases hp : p.1 = k
    · rw [show mset (p :: m) k v = (k, v) :: m by simp [mset, hp]]
      simp only [NodupKeys, mkeys, List.map_cons, List.nodup_cons]
      exact ⟨hp ▸ h.1, h.2⟩
    · rw [show mset (p :: m) k v = p :: mset m k v by simp [mset, hp]]
      simp only [NodupKeys, mkeys, List.map_cons, List.nodup_cons]
      constructor
      · intro hmem
        rcases List.mem_map.mp hmem with ⟨q, hq, hq2⟩
        rcases mem_of_mem_mset m k v q hq with h1 | h1
        · exact h.1 (hq2 ▸ List.mem_map_of_mem _ h1)
        · exact hp (hq2 ▸ h1 ▸ rfl)
      · exact ih h.2

theorem nodupKeys_mdel (m : List (α × β)) (k : α) (h : NodupKeys m) :
    NodupKeys (mdel m k) := by
  induction m with
  | nil => simp [mdel, nodupKeys_nil]
  | cons p m ih =>
    simp only [NodupKeys, mkeys, List.map_cons, List.nodup_cons] at h
    by_cases hp : p.1 = k
    · rw [show mdel (p :: m) k = mdel m k by simp [mdel, hp]]
      exact ih h.2
    · rw [show mdel (p :: m) k = p :: mdel m k by simp [mdel, hp]]
      simp only [NodupKeys, mkeys, List.map_cons, List.nodup_cons]
      refine ⟨fun hmem => ?_, ih h.2⟩
      rcases List.mem_map.mp hmem with ⟨q, hq, hq2⟩
      exact h.1 (hq2 ▸ List.mem_map_of_mem _ (mem_of_mem_mdel m k q hq))

/-- On maps with distinct keys, list membership coincides with lookup. -/
theorem mem_iff_mget (m : List (α × β)) (p : α × β) (h : NodupKeys m) :
    p ∈ m ↔ mget m p.1 = some p.2 := by
  induction m with
  | nil => simp [mget]
  | cons q m ih =>
    simp only [NodupKeys, mkeys, List.map_cons, List.nodup_cons] at h
    by_cases hq : q.1 = p.1
    · simp only [mget, hq, if_true, List.mem_cons]
      constructor
      · rintro (h1 | h1)
        · rw [h1]
        · have : p.1 ∈ m.map (fun r => r.1) := List.mem_map_of_mem _ h1
          rw [← hq] at this
          exact absurd this h.1
      · intro h1
        left
        have h2 : q.2 = p.2 := by injection h1
        have h3 : (p.1, p.2) = (q.1, q.2) := by rw [hq, h2]
        calc p = (p.1, p.2) := rfl
          _ = (q.1, q.2) := h3
          _ = q := rfl
    · simp only [mget, hq, if_false, List.mem_cons]
      rw [ih h.2]
      constructor
      · rintro (h1 | h1)
        · exact absurd (congrArg (fun r => r.1) h1).symm hq
        · exact h1
      · exact Or.inr
end MapLemmas

/-! ## Integer coordinate ranges (grid-cell loops) -/

/-- Integer interval `[a, b]` as a list, in ascending order, mirroring the
source loops `for (let g = a; g <= b; g++)`. -/
def intRange (a b : ℤ) : List ℤ :=
  (List.range (b + 1 - a).toNat).map (fun n : ℕ => a + (n : ℤ))

theorem mem_intRange (a b k : ℤ) : k ∈ intRange a b ↔ a ≤ k ∧ k ≤ b := by
  constructor
  · intro h
    rcases List.mem_map.mp h with ⟨n, hn, rfl⟩
    rw [List.mem_range] at hn
    omega
  · rintro ⟨h1, h2⟩
    refine List.mem_map.mpr ⟨(k - a).toNat, List.mem_range.mpr ?_, ?_⟩ <;> omega

theorem nodup_intRange (a b : ℤ) : (intRange a b).Nodup := by
  refine List.Nodup.map ?_ (List.nodup_range _)
  intro n1 n2 h
  have h2 : a + (n1 : ℤ) = a + (n2 : ℤ) := h
  omega

/-- Row-major list of the grid cells in the rectangle `[lo.1,hi.1] ×
[lo.2,hi.2]`, mirroring the nested `for gridX { for gridZ }` loops. -/
def gridRange (lo hi : ℤ × ℤ) : List (ℤ × ℤ) :=
  (intRange lo.1 hi.1).flatMap (fun gx => (intRange lo.2 hi.2).map (fun gz => (gx, gz)))

theorem mem_gridRange (lo hi k : ℤ × ℤ) :
    k ∈ gridRange lo hi ↔ lo.1 ≤ k.1 ∧ k.1 ≤ hi.1 ∧ lo.2 ≤ k.2 ∧ k.2 ≤ hi.2 := by
  simp only [gridRange, List.mem_flatMap, List.mem_map]
  constructor
  · rintro ⟨gx, hgx, gz, hgz, rfl⟩
    rw [mem_intRange] at hgx hgz
    exact ⟨hgx.1, hgx.2, hgz.1, hgz.2⟩
  · rintro ⟨h1, h2, h3, h4⟩
    exact ⟨k.1, (mem_intRange _ _ _).mpr ⟨h1, h2⟩,
      k.2, (mem_intRange _ _ _).mpr ⟨h3, h4⟩, rfl⟩

theorem nodup_gridRange (lo hi : ℤ × ℤ) : (gridRange lo hi).Nodup := by
  refine List.nodup_flatMap.mpr ⟨?_, ?_⟩
  · intro gx _
    refine List.Nodup.map ?_ (nodup_intRange _ _)
    intro z1 z2 h
    injection h
  · refine List.Pairwise.imp ?_ ((nodup_intRange lo.1 hi.1))
    intro gx1 gx2 hne q hq1 hq2
    simp only [Function.onFun, List.mem_map] at hq1 hq2
    rcases hq1 with ⟨z1, _, rfl⟩
    rcases hq2 with ⟨z2, _, h⟩
    exact hne (congrArg Prod.fst h).symm

/-! ## Exact ceiling of a square root of a rational -/

/-- Value of `Math.ceil(Math.sqrt q)` for a rational `q`: the least natural
`n` with `q ≤ n²` (0 for `q ≤ 0`).  Computed by bounded search; for `q > 0`
the numerator itself satisfies `q ≤ q.num ≤ q.num²` and lies in the searched
range, so the fallback value of `getD` is never used. -/
def ratCeilSqrt (q : ℚ) : ℕ :=
  if q ≤ 0 then 0
  else
    ((List.range (q.num.toNat + 2)).find?
      (fun n : ℕ => decide (q ≤ ((n : ℚ))^2))).getD (q.num.toNat + 1)

/-! ## Kernel-computable floor of a rational -/

/-- `Math.floor` on a rational, in a form the kernel evaluates directly
(the `Int.floor` of Mathlib's `FloorRing` instance does not reduce). -/
def qfloor (q : ℚ) : ℤ := q.num / (q.den : ℤ)

theorem qfloor_eq (q : ℚ) : qfloor q = ⌊q⌋ := Rat.floor_def.symm

/-! ## CollisionManager (src/app/components/collision/CollisionManager.ts) -/

/-- Obstacle kinds (`'tree' | 'rock' | 'shop' | 'waterfall'`). -/
inductive ObjType : Type
  | tree
  | rock
  | shop
  | waterfall
deriving DecidableEq, Repr

/-- `CollisionBounds` of the source, with `position` split into components.
The optional `bounds` box is read by no code path and is omitted. -/
structure CollisionBounds : Type where
  id : String
  type : ObjType
  px : ℚ
  py : ℚ
  pz : ℚ
  radius : ℚ
  height : ℚ
deriving DecidableEq, Repr

/-- State of a `CollisionManager`: the spatial grid (`Map<string, SpatialCell>`,
keyed by `"gridX,gridZ"`) and the `allObjects` map (`Map<string,
CollisionBounds>`).  The `cellSize` constructor argument is passed explicitly
to each operation. -/
structure CMState : Type where
  grid : List ((ℤ × ℤ) × List CollisionBounds)
  objects : List (String × CollisionBounds)
deriving Repr

/-- The empty manager produced by the constructor. -/
def CMState.empty : CMState := ⟨[], []⟩

/-- `worldToGrid`: `[Math.floor(x / cellSize), Math.floor(z / cellSize)]`. -/
def worldToGrid (cs x z : ℚ) : ℤ × ℤ := (qfloor (x / cs), qfloor (z / cs))

/-- Row-major list of grid cells covered by the bounding square of an
obstacle, exactly the nested loops of `addCollisionObject` /
`removeCollisionObject` (`worldToGrid(pos ± radius)`). -/
def coveredCells (cs : ℚ) (b : CollisionBounds) : List (ℤ × ℤ) :=
  gridRange (worldToGrid cs (b.px - b.radius) (b.pz - b.radius))
    (worldToGrid cs (b.px + b.radius) (b.pz + b.radius))

/-- One step of the removal loop: strip `id` from the cell at `key`, deleting
the cell if it becomes empty (`cell.objects.filter(obj => obj.id !== id)`). -/
def removeCellStep (id : String) (g : List ((ℤ × ℤ) × List CollisionBounds))
    (key : ℤ × ℤ) : List ((ℤ × ℤ) × List CollisionBounds) :=
  match mget g key with
  | none => g
  | some objs =>
    let objs2 := objs.filter (fun o => o.id ≠ id)
    if objs2 = [] then mdel g key else mset g key objs2

/-- `removeCollisionObject(id)`. -/
def removeCollisionObject (cs : ℚ) (st : CMState) (id : String) : CMState :=
  match mget st.objects id with
  | none => st
  | some b =>
    ⟨(coveredCells cs b).foldl (removeCellStep id) st.grid,
      mdel st.objects id⟩

/-- One step of the insertion loop: `getCell(gridX, gridZ).objects.push(bounds)`
(creating the cell when absent). -/
def addCellStep (b : CollisionBounds) (g : List ((ℤ × ℤ) × List CollisionBounds))
    (key : ℤ × ℤ) : List ((ℤ × ℤ) × List CollisionBounds) :=
  mset g key (((mget g key).getD []) ++ [b])

/-- `addCollisionObject(bounds)`: remove any prior object with the same id,
store in `allObjects`, then register in each covered cell. -/
def addCollisionObject (cs : ℚ) (st : CMState) (b : CollisionBounds) : CMState :=
  let st2 := removeCollisionObject cs st b.id
  ⟨(coveredCells cs b).foldl (addCellStep b) st2.grid,
    mset st2.objects b.id b⟩

/-- Exclusion test: `excludeTypes && excludeTypes.includes(obj.type)` means
skip; this predicate is true when the object is NOT skipped. -/
def notExcluded (ex : Option (List ObjType)) (t : ObjType) : Bool :=
  match ex with
  | none => true
  | some l => decide (t ∉ l)

/-- Hit predicate of `checkPointCollision` for one object:
`distance2D <= obj.radius && dy >= 0 && dy <= obj.height`, with
`distance2D ≤ r` expressed in the exact squared form
`0 ≤ r ∧ distance2D² ≤ r²`. -/
def pointHit (x y z : ℚ) (ex : Option (List ObjType)) (o : CollisionBounds) :
    Bool :=
  notExcluded ex o.type &&
    decide (0 ≤ o.radius ∧ (x - o.px)^2 + (z - o.pz)^2 ≤ o.radius^2) &&
    decide (0 ≤ y - o.py) && decide (y - o.py ≤ o.height)

/-- `checkPointCollision(x, y, z, excludeTypes?)`: scan the single cell
containing the point and return the first object the point is inside of. -/
def checkPointCollision (cs : ℚ) (st : CMState) (x y z : ℚ)
    (ex : Option (List ObjType)) : Option CollisionBounds :=
  match mget st.grid (worldToGrid cs x z) with
  | none => none
  | some objs => objs.find? (pointHit x y z ex)

/-- Hit predicate of `checkCircleCollision` for one object:
`distance < radius + obj.radius`, in the exact squared form
`0 < m ∧ distance² < m²` for `m = radius + obj.radius`. -/
def circleHit (x z r : ℚ) (ex : Option (List ObjType)) (o : CollisionBounds) :
    Bool :=
  notExcluded ex o.type &&
    decide (0 < r + o.radius ∧
      (x - o.px)^2 + (z - o.pz)^2 < (r + o.radius)^2)

/-- `checkCircleCollision(x, z, radius, excludeTypes?)`: scan every cell
overlapped by the query circle's bounding box, in row-major loop order, and
return the first object whose circle overlaps the query circle. -/
def checkCircleCollision (cs : ℚ) (st : CMState) (x z r : ℚ)
    (ex : Option (List ObjType)) : Option CollisionBounds :=
  (gridRange (worldToGrid cs (x - r) (z - r)) (worldToGrid cs (x + r) (z + r))).findSome?
    (fun key =>
      match mget st.grid key with
      | none => none
      | some objs => objs.find? (circleHit x z r ex))

/-- `checkSweptCollision(fromX, fromZ, toX, toZ, radius, excludeTypes?)`:
sample the segment at `steps = max(3, ceil(len / cellSize))` intervals and
circle-query each sample.  `ceil(len / cellSize)` with `len = √len2` equals
`ratCeilSqrt (len2 / cellSize²)` for positive `cellSize`. -/
def checkSweptCollision (cs : ℚ) (st : CMState) (fromX fromZ toX toZ r : ℚ)
    (ex : Option (List ObjType)) : Option CollisionBounds :=
  let len2 := (toX - fromX)^2 + (toZ - fromZ)^2
  let steps : ℕ := max 3 (ratCeilSqrt (len2 / cs^2))
  (List.range (steps + 1)).findSome? (fun i : ℕ =>
    let t : ℚ := (i : ℚ) / (steps : ℚ)
    checkCircleCollision cs st (fromX + (toX - fromX) * t)
      (fromZ + (toZ - fromZ) * t) r ex)

/-- `getObjectsInRadius(x, z, radius)`: deduplicated scan of the cells
overlapped by the query circle's bounding box, keeping objects with
`distance ≤ radius + obj.radius` (squared form). -/
def getObjectsInRadius (cs : ℚ) (st : CMState) (x z r : ℚ) :
    List CollisionBounds :=
  let cells := gridRange (worldToGrid cs (x - r) (z - r))
    (worldToGrid cs (x + r) (z + r))
  (cells.foldl (fun acc key =>
    match mget st.grid key with
    | none => acc
    | some objs => objs.foldl (fun acc2 o =>
        if (acc2.map (fun q : CollisionBounds => q.id)).contains o.id then acc2
        else if 0 ≤ r + o.radius ∧ (x - o.px)^2 + (z - o.pz)^2 ≤ (r + o.radius)^2
        then acc2 ++ [o] else acc2) acc) [])

/-- Operation alphabet for reachability of collision-manager states. -/
inductive CMOp : Type
  | add (b : CollisionBounds)
  | remove (id : String)
deriving Repr

/-- Apply one operation. -/
def applyCMOp (cs : ℚ) (st : CMState) (op : CMOp) : CMState :=
  match op with
  | CMOp.add b => addCollisionObject cs st b
  | CMOp.remove id => removeCollisionObject cs st id

/-- Run a sequence of operations from a state. -/
def runCMOps (cs : ℚ) (st : CMState) (ops : List CMOp) : CMState :=
  ops.foldl (applyCMOp cs) st

/-- States reachable from the fresh manager by insertions and removals. -/
inductive CMReachable (cs : ℚ) : CMState → Prop
  | init : CMReachable cs CMState.empty
  | add (st : CMState) (b : CollisionBounds) (h : CMReachable cs st) :
      CMReachable cs (addCollisionObject cs st b)
  | remove (st : CMState) (id : String) (h : CMReachable cs st) :
      CMReachable cs (removeCollisionObject cs st id)

/-! ## Collision grid invariant -/

/-- Obstacle `b` is registered in the cell at `g`. -/
def inCell (st : CMState) (g : ℤ × ℤ) (b : CollisionBounds) : Prop :=
  ∃ objs, mget st.grid g = some objs ∧ b ∈ objs

/-- Invariant of collision-manager states: grid and object maps have distinct
keys, object-map keys agree with stored ids, no cell is empty, and an
obstacle is registered in exactly the cells its bounding square covers. -/
structure CMInv (cs : ℚ) (st : CMState) : Prop where
  gridNodup : NodupKeys st.grid
  objNodup : NodupKeys st.objects
  keyId : ∀ id b, mget st.objects id = some b → b.id = id
  cellNonempty : ∀ g objs, mget st.grid g = some objs → objs ≠ []
  reg : ∀ g b, inCell st g b ↔
    (mget st.objects b.id = some b ∧ g ∈ coveredCells cs b)

theorem addCellStep_mget (b : CollisionBounds)
    (g : List ((ℤ × ℤ) × List CollisionBounds)) (k1 k : ℤ × ℤ) :
    mget (addCellStep b g k1) k =
      if k = k1 then some (((mget g k1).getD []) ++ [b]) else mget g k := by
  by_cases h : k = k1
  · rw [if_pos h, h, addCellStep, mget_mset_self]
  · rw [if_neg h, addCellStep, mget_mset_ne _ _ _ _ h]

theorem removeCellStep_mget (id : String)
    (g : List ((ℤ × ℤ) × List CollisionBounds)) (k1 k : ℤ × ℤ) :
    mget (removeCellStep id g k1) k =
      if k = k1 then
        (match mget g k1 with
        | none => none
        | some objs =>
          let objs2 := objs.filter (fun o => o.id ≠ id)
          if objs2 = [] then none else some objs2)
      else mget g k := by
  unfold removeCellStep
  cases hm : mget g k1 with
  | none =>
    by_cases h : k = k1
    · rw [if_pos h, h, hm]
    · rw [if_neg h]
  | some objs =>
    by_cases h : k = k1
    · rw [if_pos h, h]
      by_cases hf : objs.filter (fun o => o.id ≠ id) = []
      · simp only [hf, if_pos rfl]
        exact mget_mdel_self _ _
      · simp only [hf, if_neg hf]
        exact mget_mset_self _ _ _
    · by_cases hf : objs.filter (fun o => o.id ≠ id) = []
      · simp only [hf, if_pos rfl, if_neg h]
        exact mget_mdel_ne _ _ _ h
      · simp only [hf, if_neg hf, if_neg h]
        exact mget_mset_ne _ _ _ _ h

theorem nodupKeys_addCellStep (b : CollisionBounds)
    (g : List ((ℤ × ℤ) × List CollisionBounds)) (k : ℤ × ℤ)
    (h : NodupKeys g) : NodupKeys (addCellStep b g k) :=
  nodupKeys_mset _ _ _ h

theorem nodupKeys_removeCellStep (id : String)
    (g : List ((ℤ × ℤ) × List CollisionBounds)) (k : ℤ × ℤ)
    (h : NodupKeys g) : NodupKeys (removeCellStep id g k) := by
  unfold removeCellStep
  cases mget g k with
  | none => exact h
  | some objs =>
    by_cases hf : objs.filter (fun o => o.id ≠ id) = []
    · simp only [hf, if_pos rfl]
      exact nodupKeys_mdel _ _ h
    · simp only [if_neg hf]
      exact nodupKeys_mset _ _ _ h

theorem nodupKeys_foldl_add (b : CollisionBounds) (keys : List (ℤ × ℤ))
    (g : List ((ℤ × ℤ) × List CollisionBounds)) (h : NodupKeys g) :
    NodupKeys (keys.foldl (addCellStep b) g) := by
  induction keys generalizing g with
  | nil => exact h
  | cons k keys ih => exact ih _ (nodupKeys_addCellStep b g k h)

theorem nodupKeys_foldl_remove (id : String) (keys : List (ℤ × ℤ))
    (g : List ((ℤ × ℤ) × List CollisionBounds)) (h : NodupKeys g) :
    NodupKeys (keys.foldl (removeCellStep id) g) := by
  induction keys generalizing g with
  | nil => exact h
  | cons k keys ih => exact ih _ (nodupKeys_removeCellStep id g k h)

theorem addFold_mget (b : CollisionBounds) (keys : List (ℤ × ℤ))
    (hnd : keys.Nodup) (g : List ((ℤ × ℤ) × List CollisionBounds)) (k : ℤ × ℤ) :
    mget (keys.foldl (addCellStep b) g) k =
      if k ∈ keys then some (((mget g k).getD []) ++ [b]) else mget g k := by
  induction keys generalizing g with
  | nil => simp
  | cons k1 keys ih =>
    rcases List.nodup_cons.mp hnd with ⟨hk1, hnd2⟩
    rw [List.foldl_cons, ih hnd2]
    by_cases hmem : k ∈ keys
    · have hne : k ≠ k1 := fun hh => hk1 (hh ▸ hmem)
      rw [if_pos hmem, if_pos (List.mem_cons_of_mem _ hmem),
        addCellStep_mget, if_neg hne]
    · rw [if_neg hmem]
      by_cases hk : k = k1
      · rw [addCellStep_mget, if_pos hk,
          if_pos (hk ▸ List.mem_cons_self k1 keys), hk]
      · rw [addCellStep_mget, if_neg hk, if_neg (by
          intro hc
          rcases List.mem_cons.mp hc with h1 | h1
          · exact hk h1
          · exact hmem h1)]

theorem removeFold_mget (id : String) (keys : List (ℤ × ℤ))
    (hnd : keys.Nodup) (g : List ((ℤ × ℤ) × List CollisionBounds)) (k : ℤ × ℤ) :
    mget (keys.foldl (removeCellStep id) g) k =
      if k ∈ keys then
        (match mget g k with
        | none => none
        | some objs =>
          let objs2 := objs.filter (fun o => o.id ≠ id)
          if objs2 = [] then none else some objs2)
      else mget g k := by
  induction keys generalizing g with
  | nil => simp
  | cons k1 keys ih =>
    rcases List.nodup_cons.mp hnd with ⟨hk1, hnd2⟩
    rw [List.foldl_cons, ih hnd2]
    by_cases hmem : k ∈ keys
    · have hne : k ≠ k1 := fun hh => hk1 (hh ▸ hmem)
      rw [if_pos hmem, if_pos (List.mem_cons_of_mem _ hmem),
        removeCellStep_mget, if_neg hne]
    · rw [if_neg hmem]
      by_cases hk : k = k1
      · rw [removeCellStep_mget, if_pos hk,
          if_pos (hk ▸ List.mem_cons_self k1 keys), hk]
      · rw [removeCellStep_mget, if_neg hk, if_neg (by
          intro hc
          rcases List.mem_cons.mp hc with h1 | h1
          · exact hk h1
          · exact hmem h1)]

theorem nodup_coveredCells (cs : ℚ) (b : CollisionBounds) :
    (coveredCells cs b).Nodup := nodup_gridRange _ _

theorem remove_objects_mget (cs : ℚ) (st : CMState) (id id2 : String) :
    mget (removeCollisionObject cs st id).objects id2 =
      if id2 = id then none else mget st.objects id2 := by
  unfold removeCollisionObject
  cases hm : mget st.objects id with
  | none =>
    by_cases h : id2 = id
    · rw [if_pos h, h, hm]
    · rw [if_neg h]
  | some b =>
    by_cases h : id2 = id
    · show mget (mdel st.objects id) id2 = _
      rw [if_pos h, h]
      exact mget_mdel_self _ _
    · show mget (mdel st.objects id) id2 = _
      rw [if_neg h]
      exact mget_mdel_ne _ _ _ h

theorem add_objects_mget (cs : ℚ) (st : CMState) (b : CollisionBounds)
    (id2 : String) :
    mget (addCollisionObject cs st b).objects id2 =
      if id2 = b.id then some b else mget st.objects id2 := by
  show mget (mset (removeCollisionObject cs st b.id).objects b.id b) id2 = _
  by_cases h : id2 = b.id
  · rw [if_pos h, h, mget_mset_self]
  · rw [if_neg h, mget_mset_ne _ _ _ _ h, remove_objects_mget, if_neg h]

theorem remove_grid_mget (cs : ℚ) (st : CMState) (id : String)
    (b : CollisionBounds) (hm : mget st.objects id = some b) (k : ℤ × ℤ) :
    mget (removeCollisionObject cs st id).grid k =
      if k ∈ coveredCells cs b then
        (match mget st.grid k with
        | none => none
        | some objs =>
          let objs2 := objs.filter (fun o => o.id ≠ id)
          if objs2 = [] then none else some objs2)
      else mget st.grid k := by
  unfold removeCollisionObject
  rw [hm]
  exact removeFold_mget id _ (nodup_coveredCells cs b) st.grid k

theorem add_grid_mget (cs : ℚ) (st : CMState) (b : CollisionBounds) (k : ℤ × ℤ) :
    mget (addCollisionObject cs st b).grid k =
      (let st2 := removeCollisionObject cs st b.id
      if k ∈ coveredCells cs b then
        some (((mget st2.grid k).getD []) ++ [b])
      else mget st2.grid k) := by
  show mget ((coveredCells cs b).foldl (addCellStep b)
    (removeCollisionObject cs st b.id).grid) k = _
  exact addFold_mget b _ (nodup_coveredCells cs b) _ k

theorem cminv_empty (cs : ℚ) : CMInv cs CMState.empty := by
  refine ⟨nodupKeys_nil, nodupKeys_nil, ?_, ?_, ?_⟩
  · intro id b h
    simp [CMState.empty, mget] at h
  · intro g objs h
    simp [CMState.empty, mget] at h
  · intro g b
    constructor
    · rintro ⟨objs, h, _⟩
      simp [CMState.empty, mget] at h
    · rintro ⟨h, _⟩
      simp [CMState.empty, mget] at h

theorem cminv_remove (cs : ℚ) (st : CMState) (id : String)
    (inv : CMInv cs st) : CMInv cs (removeCollisionObject cs st id) := by
  cases hm : mget st.objects id with
  | none =>
    have heq : removeCollisionObject cs st id = st := by
      unfold removeCollisionObject
      rw [hm]
    rw [heq]
    exact inv
  | some b0 =>
    have hgrid : (removeCollisionObject cs st id).grid
        = (coveredCells cs b0).foldl (removeCellStep id) st.grid := by
      unfold removeCollisionObject
      rw [hm]
    have hobjs : (removeCollisionObject cs st id).objects = mdel st.objects id := by
      unfold removeCollisionObject
      rw [hm]
    refine ⟨?_, ?_, ?_, ?_, ?_⟩
    · rw [hgrid]
      exact nodupKeys_foldl_remove id _ _ inv.gridNodup
    · rw [hobjs]
      exact nodupKeys_mdel _ _ inv.objNodup
    · intro id2 b h
      rw [hobjs] at h
      by_cases hi : id2 = id
      · rw [hi, mget_mdel_self] at h
        cases h
      · rw [mget_mdel_ne _ _ _ hi] at h
        exact inv.keyId id2 b h
    · intro g objs h
      have hgget : mget (removeCollisionObject cs st id).grid g
          = mget ((coveredCells cs b0).foldl (removeCellStep id) st.grid) g := by
        rw [hgrid]
      rw [hgget, removeFold_mget id _ (nodup_coveredCells cs b0)] at h
      by_cases hg : g ∈ coveredCells cs b0
      · rw [if_pos hg] at h
        cases hm2 : mget st.grid g with
        | none => rw [hm2] at h; cases h
        | some objs0 =>
          rw [hm2] at h
          simp only at h
          by_cases hf : objs0.filter (fun o => o.id ≠ id) = []
          · rw [if_pos hf] at h; cases h
          · rw [if_neg hf] at h
            injection h with h
            rw [h] at hf
            exact hf
      · rw [if_neg hg] at h
        exact inv.cellNonempty g objs h
    · intro g b
      have hgget : mget (removeCollisionObject cs st id).grid g
          = mget ((coveredCells cs b0).foldl (removeCellStep id) st.grid) g := by
        rw [hgrid]
      constructor
      · rintro ⟨objs, hq, hmem⟩
        rw [hgget, removeFold_mget id _ (nodup_coveredCells cs b0)] at hq
        by_cases hg : g ∈ coveredCells cs b0
        · rw [if_pos hg] at hq
          cases hm2 : mget st.grid g with
          | none => rw [hm2] at hq; cases hq
          | some objs0 =>
            rw [hm2] at hq
            simp only at hq
            by_cases hf : objs0.filter (fun o => o.id ≠ id) = []
            · rw [if_pos hf] at hq; cases hq
            · rw [if_neg hf] at hq
              injection hq with hq
              rw [← hq] at hmem
              have hmem2 := List.of_mem_filter hmem
              have hbid : b.id ≠ id := by
                simpa using hmem2
              have hcell : inCell st g b :=
                ⟨objs0, hm2, List.mem_of_mem_filter hmem⟩
              rcases (inv.reg g b).mp hcell with ⟨hobj, hcov⟩
              refine ⟨?_, hcov⟩
              rw [hobjs, mget_mdel_ne _ _ _ hbid]
              exact hobj
        · rw [if_neg hg] at hq
          have hcell : inCell st g b := ⟨objs, hq, hmem⟩
          rcases (inv.reg g b).mp hcell with ⟨hobj, hcov⟩
          have hbid : b.id ≠ id := by
            intro hh
            rw [hh, hm] at hobj
            injection hobj with hobj
            rw [← hobj] at hcov
            exact hg hcov
          refine ⟨?_, hcov⟩
          rw [hobjs, mget_mdel_ne _ _ _ hbid]
          exact hobj
      · rintro ⟨hobj, hcov⟩
        rw [hobjs] at hobj
        have hbid : b.id ≠ id := by
          intro hh
          rw [hh, mget_mdel_self] at hobj
          cases hobj
        rw [mget_mdel_ne _ _ _ hbid] at hobj
        rcases (inv.reg g b).mpr ⟨hobj, hcov⟩ with ⟨objs0, hm2, hmem0⟩
        by_cases hg : g ∈ coveredCells cs b0
        · have hmemf : b ∈ objs0.filter (fun o => o.id ≠ id) :=
            List.mem_filter.mpr ⟨hmem0, by simpa using hbid⟩
          have hf : objs0.filter (fun o => o.id ≠ id) ≠ [] := by
            intro hh
            rw [hh] at hmemf
            cases hmemf
          refine ⟨objs0.filter (fun o => o.id ≠ id), ?_, hmemf⟩
          rw [hgget, removeFold_mget id _ (nodup_coveredCells cs b0),
            if_pos hg, hm2]
          simp only [if_neg hf]
        · refine ⟨objs0, ?_, hmem0⟩
          rw [hgget, removeFold_mget id _ (nodup_coveredCells cs b0),
            if_neg hg]
          exact hm2

theorem cminv_add (cs : ℚ) (st : CMState) (b : CollisionBounds)
    (inv : CMInv cs st) : CMInv cs (addCollisionObject cs st b) := by
  have inv2 : CMInv cs (removeCollisionObject cs st b.id) :=
    cminv_remove cs st b.id inv
  have hnone : mget (removeCollisionObject cs st b.id).objects b.id = none := by
    rw [remove_objects_mget, if_pos rfl]
  have hgrid : (addCollisionObject cs st b).grid
      = (coveredCells cs b).foldl (addCellStep b)
        (removeCollisionObject cs st b.id).grid := rfl
  have hobjs : (addCollisionObject cs st b).objects
      = mset (removeCollisionObject cs st b.id).objects b.id b := rfl
  refine ⟨?_, ?_, ?_, ?_, ?_⟩
  · rw [hgrid]
    exact nodupKeys_foldl_add b _ _ inv2.gridNodup
  · rw [hobjs]
    exact nodupKeys_mset _ _ _ inv2.objNodup
  · intro id2 c h
    rw [add_objects_mget] at h
    by_cases hi : id2 = b.id
    · rw [if_pos hi] at h
      injection h with h
      rw [← h, hi]
    · rw [if_neg hi] at h
      exact inv.keyId id2 c h
  · intro g objs h
    have hgget : mget (addCollisionObject cs st b).grid g
        = mget ((coveredCells cs b).foldl (addCellStep b)
          (removeCollisionObject cs st b.id).grid) g := by
      rw [hgrid]
    rw [hgget, addFold_mget b _ (nodup_coveredCells cs b)] at h
    by_cases hg : g ∈ coveredCells cs b
    · rw [if_pos hg] at h
      injection h with h
      rw [← h]
      intro hh
      simpa using congrArg List.length hh
    · rw [if_neg hg] at h
      exact inv2.cellNonempty g objs h
  · intro g c
    have hgget : mget (addCollisionObject cs st b).grid g
        = mget ((coveredCells cs b).foldl (addCellStep b)
          (removeCollisionObject cs st b.id).grid) g := by
      rw [hgrid]
    constructor
    · rintro ⟨objs, hq, hmem⟩
      rw [hgget, addFold_mget b _ (nodup_coveredCells cs b)] at hq
      by_cases hg : g ∈ coveredCells cs b
      · rw [if_pos hg] at hq
        injection hq with hq
        rw [← hq] at hmem
        rcases List.mem_append.mp hmem with h1 | h1
        · cases hgd : mget (removeCollisionObject cs st b.id).grid g with
          | none =>
            rw [hgd] at h1
            cases h1
          | some objs0 =>
            rw [hgd] at h1
            simp only [Option.getD_some] at h1
            have hcell : inCell (removeCollisionObject cs st b.id) g c :=
              ⟨objs0, hgd, h1⟩
            rcases (inv2.reg g c).mp hcell with ⟨hobj2, hcov2⟩
            have hcid : c.id ≠ b.id := by
              intro hh
              rw [hh, hnone] at hobj2
              cases hobj2
            refine ⟨?_, hcov2⟩
            rw [add_objects_mget, if_neg hcid]
            rw [remove_objects_mget, if_neg hcid] at hobj2
            exact hobj2
        · have hcb : c = b := List.mem_singleton.mp h1
          refine ⟨?_, hcb ▸ hg⟩
          rw [hcb, add_objects_mget, if_pos rfl]
      · rw [if_neg hg] at hq
        have hcell : inCell (removeCollisionObject cs st b.id) g c :=
          ⟨objs, hq, hmem⟩
        rcases (inv2.reg g c).mp hcell with ⟨hobj2, hcov2⟩
        have hcid : c.id ≠ b.id := by
          intro hh
          rw [hh, hnone] at hobj2
          cases hobj2
        refine ⟨?_, hcov2⟩
        rw [add_objects_mget, if_neg hcid]
        rw [remove_objects_mget, if_neg hcid] at hobj2
        exact hobj2
    · rintro ⟨hobj, hcovc⟩
      rw [add_objects_mget] at hobj
      by_cases hc : c.id = b.id
      · rw [if_pos hc] at hobj
        injection hobj with hobj
        have hcb : c = b := hobj.symm
        subst hcb
        have hg : g ∈ coveredCells cs c := hcovc
        refine ⟨((mget (removeCollisionObject cs st c.id).grid g).getD []) ++ [c],
          ?_, List.mem_append.mpr (Or.inr (List.mem_singleton.mpr rfl))⟩
        rw [hgget, addFold_mget c _ (nodup_coveredCells cs c), if_pos hg]
      · rw [if_neg hc] at hobj
        have hobj2 : mget (removeCollisionObject cs st b.id).objects c.id
            = some c := by
          rw [remove_objects_mget, if_neg hc]
          exact hobj
        rcases (inv2.reg g c).mpr ⟨hobj2, hcovc⟩ with ⟨objs0, hgd, hmem0⟩
        by_cases hg : g ∈ coveredCells cs b
        · refine ⟨((mget (removeCollisionObject cs st b.id).grid g).getD [])
            ++ [b], ?_, ?_⟩
          · rw [hgget, addFold_mget b _ (nodup_coveredCells cs b), if_pos hg]
          · refine List.mem_append.mpr (Or.inl ?_)
            rw [hgd]
            exact hmem0
        · refine ⟨objs0, ?_, hmem0⟩
          rw [hgget, addFold_mget b _ (nodup_coveredCells cs b), if_neg hg]
          exact hgd

theorem cminv_reachable (cs : ℚ) (st : CMState) (h : CMReachable cs st) :
    CMInv cs st := by
  induction h with
  | init => exact cminv_empty cs
  | add st b _ ih => exact cminv_add cs st b ih
  | remove st id _ ih => exact cminv_remove cs st id ih

/-! ## Geometry of covered cells -/

theorem qfloor_mono (cs a b : ℚ) (hcs : 0 < cs) (h : a ≤ b) :
    qfloor (a / cs) ≤ qfloor (b / cs) := by
  rw [qfloor_eq, qfloor_eq]
  exact Int.floor_le_floor (div_le_div_of_nonneg_right h hcs.le)

theorem mem_coveredCells (cs : ℚ) (b : CollisionBounds) (g : ℤ × ℤ) :
    g ∈ coveredCells cs b ↔
      qfloor ((b.px - b.radius) / cs) ≤ g.1 ∧ g.1 ≤ qfloor ((b.px + b.radius) / cs) ∧
      qfloor ((b.pz - b.radius) / cs) ≤ g.2 ∧ g.2 ≤ qfloor ((b.pz + b.radius) / cs) := by
  unfold coveredCells worldToGrid
  rw [mem_gridRange]

/-- The cell that contains the obstacle's own center is covered, provided the
radius is nonnegative. -/
theorem center_mem_coveredCells (cs : ℚ) (b : CollisionBounds) (hcs : 0 < cs)
    (hr : 0 ≤ b.radius) : worldToGrid cs b.px b.pz ∈ coveredCells cs b := by
  rw [mem_coveredCells]
  refine ⟨?_, ?_, ?_, ?_⟩
  · exact qfloor_mono cs _ _ hcs (by linarith)
  · exact qfloor_mono cs _ _ hcs (by linarith)
  · exact qfloor_mono cs _ _ hcs (by linarith)
  · exact qfloor_mono cs _ _ hcs (by linarith)

/-- One axis of the cell-coverage geometry: the floor range `[⌊a/cs⌋, ⌊b/cs⌋]`
contains `g` exactly when the half-open cell `[g·cs, (g+1)·cs)` meets the
closed interval `[a, b]`. -/
theorem floorRange_iff_overlap (cs a b : ℚ) (g : ℤ) (hcs : 0 < cs)
    (hab : a ≤ b) :
    (qfloor (a / cs) ≤ g ∧ g ≤ qfloor (b / cs)) ↔
      ∃ p : ℚ, a ≤ p ∧ p ≤ b ∧ (g : ℚ) * cs ≤ p ∧ p < ((g : ℚ) + 1) * cs := by
  rw [qfloor_eq, qfloor_eq]
  constructor
  · rintro ⟨h1, h2⟩
    have hga : a < ((g : ℚ) + 1) * cs := by
      have := Int.floor_le_iff.mp h1
      rw [div_lt_iff hcs] at this
      linarith
    have hgb : (g : ℚ) * cs ≤ b := by
      have h3 : (g : ℚ) ≤ b / cs := by
        exact_mod_cast Int.le_floor.mp h2
      rw [le_div_iff hcs] at h3
      exact h3
    refine ⟨max a ((g : ℚ) * cs), le_max_left _ _, ?_, le_max_right _ _, ?_⟩
    · exact max_le hab hgb
    · rcases max_cases a ((g : ℚ) * cs) with ⟨heq, _⟩ | ⟨heq, _⟩
      · rw [heq]
        exact hga
      · rw [heq]
        have : (g : ℚ) * cs < ((g : ℚ) + 1) * cs := by
          have := mul_lt_mul_of_pos_right (show (g : ℚ) < g + 1 by linarith) hcs
          exact this
        exact this
  · rintro ⟨p, hap, hpb, hgp, hpg⟩
    constructor
    · have hdiv : a / cs ≤ p / cs := div_le_div_of_nonneg_right hap hcs.le
      have hfl : ⌊p / cs⌋ = g := by
        rw [Int.floor_eq_iff]
        constructor
        · rw [le_div_iff hcs]
          exact_mod_cast hgp
        · rw [div_lt_iff hcs]
          exact_mod_cast hpg
      rw [← hfl]
      exact Int.floor_le_floor hdiv
    · have hdiv : p / cs ≤ b / cs := div_le_div_of_nonneg_right hpb hcs.le
      have hfl : ⌊p / cs⌋ = g := by
        rw [Int.floor_eq_iff]
        constructor
        · rw [le_div_iff hcs]
          exact_mod_cast hgp
        · rw [div_lt_iff hcs]
          exact_mod_cast hpg
      rw [← hfl]
      exact Int.floor_le_floor hdiv

/-! ## Square-root bridges -/

theorem sqrtLe_iff (s r : ℚ) :
    (0 ≤ r ∧ s ≤ r^2) ↔ Real.sqrt (s : ℝ) ≤ (r : ℝ) := by
  rw [Real.sqrt_le_iff]
  constructor
  · rintro ⟨h1, h2⟩
    exact ⟨by exact_mod_cast h1, by exact_mod_cast h2⟩
  · rintro ⟨h1, h2⟩
    exact ⟨by exact_mod_cast h1, by exact_mod_cast h2⟩

theorem sqrtLt_iff (s m : ℚ) :
    (0 < m ∧ s < m^2) ↔ Real.sqrt (s : ℝ) < (m : ℝ) := by
  constructor
  · rintro ⟨h1, h2⟩
    rw [Real.sqrt_lt' (by exact_mod_cast h1)]
    exact_mod_cast h2
  · intro h
    have hm : (0 : ℝ) < (m : ℝ) := lt_of_le_of_lt (Real.sqrt_nonneg _) h
    have h2 := (Real.sqrt_lt' hm).mp h
    exact ⟨by exact_mod_cast hm, by exact_mod_cast h2⟩

theorem mget_some_mem {α β : Type} [DecidableEq α] (m : List (α × β)) (k : α)
    (v : β) (h : mget m k = some v) : (k, v) ∈ m := by
  induction m with
  | nil => cases h
  | cons p m ih =>
    by_cases hp : p.1 = k
    · rw [show mget (p :: m) k = some p.2 by simp [mget, hp]] at h
      injection h with h
      have hpv : p = (k, v) := by
        calc p = (p.1, p.2) := rfl
          _ = (k, v) := by rw [hp, h]
      exact hpv ▸ List.mem_cons_self _ _
    · rw [show mget (p :: m) k = mget m k by simp [mget, hp]] at h
      exact List.mem_cons_of_mem _ (ih h)

/-! ## Claim C1 -/

/-- Demo state shared by collision-query claims: a single tree of radius 2 and
height 5 at world position (10, 0, 10), in a manager with `cellSize = 8`. -/
def demoObs : CollisionBounds := ⟨"o", ObjType.tree, 10, 0, 10, 2, 5⟩

def demoSt : CMState := addCollisionObject 8 CMState.empty demoObs

/-- Two overlapping obstacles sharing a center, for the C1 counterexample. -/
def obsA : CollisionBounds := ⟨"a", ObjType.tree, 0, 0, 0, 1, 1⟩

def obsB : CollisionBounds := ⟨"b", ObjType.tree, 0, 0, 0, 1, 1⟩

def stAB : CMState :=
  addCollisionObject 8 (addCollisionObject 8 CMState.empty obsA) obsB

/-- C1 counterexample: obstacle "b" is stored in the index, yet
`checkPointCollision` at b's own center returns obstacle "a" (the first
object pushed into the shared cell), not "b".  So "every obstacle currently
stored in the index is returned by checkPointCollision queried at that
obstacle's own center" fails as stated. -/
theorem C1_counterexample :
    mget stAB.objects "b" = some obsB ∧
    checkPointCollision 8 stAB obsB.px obsB.py obsB.pz none = some obsA ∧
    obsA.id ≠ obsB.id := by decide

/-- C1 (amended): in any reachable index state whose stored obstacles all have
nonnegative radius and height, `checkPointCollision` at a stored obstacle's
own center reports a hit (though possibly on another overlapping obstacle),
and after `removeCollisionObject(id)` no point query anywhere ever returns an
object with that id. -/
theorem C1_point_query_amended (cs : ℚ) (st : CMState) (hcs : 0 < cs)
    (hre : CMReachable cs st)
    (hnn : ∀ p ∈ st.objects, 0 ≤ p.2.radius ∧ 0 ≤ p.2.height) :
    (∀ id b, mget st.objects id = some b →
      (checkPointCollision cs st b.px b.py b.pz none).isSome = true) ∧
    (∀ id x y z ex o,
      checkPointCollision cs (removeCollisionObject cs st id) x y z ex = some o →
      o.id ≠ id) := by
  have inv := cminv_reachable cs st hre
  constructor
  · intro id b h
    have hid : b.id = id := inv.keyId id b h
    have hobj : mget st.objects b.id = some b := by rw [hid]; exact h
    have hbn := hnn (id, b) (mget_some_mem _ _ _ h)
    have hcov : worldToGrid cs b.px b.pz ∈ coveredCells cs b :=
      center_mem_coveredCells cs b hcs hbn.1
    rcases (inv.reg (worldToGrid cs b.px b.pz) b).mpr ⟨hobj, hcov⟩ with
      ⟨objs, hq, hmem⟩
    have hpb : pointHit b.px b.py b.pz none b = true := by
      unfold pointHit notExcluded
      have h1 : (0 : ℚ) ≤ b.radius ∧
          (b.px - b.px)^2 + (b.pz - b.pz)^2 ≤ b.radius^2 := by
        constructor
        · exact hbn.1
        · have : (b.px - b.px)^2 + (b.pz - b.pz)^2 = 0 := by ring
          rw [this]
          exact sq_nonneg _
      have h2 : (0 : ℚ) ≤ b.py - b.py := by linarith
      have h3 : b.py - b.py ≤ b.height := by linarith [hbn.2]
      have h4 : (0 : ℚ) ≤ b.height := hbn.2
      simp [h1, h2, h3, h4]
    unfold checkPointCollision
    rw [hq]
    have : (objs.find? (pointHit b.px b.py b.pz none)).isSome :=
      List.find?_isSome.mpr ⟨b, hmem, hpb⟩
    exact this
  · intro id x y z ex o h
    have inv2 : CMInv cs (removeCollisionObject cs st id) :=
      cminv_remove cs st id inv
    unfold checkPointCollision at h
    cases hm2 : mget (removeCollisionObject cs st id).grid (worldToGrid cs x z) with
    | none => rw [hm2] at h; cases h
    | some objs =>
      rw [hm2] at h
      have hmem : o ∈ objs := List.mem_of_find?_eq_some h
      have hcell : inCell (removeCollisionObject cs st id)
          (worldToGrid cs x z) o := ⟨objs, hm2, hmem⟩
      rcases (inv2.reg _ o).mp hcell with ⟨hobj, _⟩
      intro hh
      rw [hh, remove_objects_mget, if_pos rfl] at hobj
      cases hobj

/-- C1 witness: the amended theorem applied to the concrete demo state. -/
theorem C1_witness :
    (checkPointCollision 8 demoSt 10 0 10 none).isSome = true := by
  have h := (C1_point_query_amended 8 demoSt (by norm_num)
    (CMReachable.add CMState.empty demoObs CMReachable.init)
    (by decide)).1 "o" demoObs (by decide)
  exact h

/-! ## Claim C2 -/

def stA : CMState := addCollisionObject 8 CMState.empty obsA

/-- C2 counterexample: with a negative query radius the claimed equivalence
fails.  Obstacle "a" (radius 1 at the origin) is stored, is not excluded, and
its center distance to the query point (2/5, 0) is 2/5, strictly below
`r + radius = -1/2 + 1 = 1/2`; yet `checkCircleCollision` with radius `-1/2`
scans an empty cell range (the floor of the inverted bounding box is empty)
and reports no hit. -/
theorem C2_counterexample :
    (checkCircleCollision 8 stA (2/5) 0 (-(1/2)) none).isSome = false ∧
    mget stA.objects obsA.id = some obsA ∧
    notExcluded none obsA.type = true ∧
    Real.sqrt ((((2/5 : ℚ) - obsA.px)^2 + ((0 : ℚ) - obsA.pz)^2 : ℚ) : ℝ)
      < ((-(1/2) : ℚ) : ℝ) + (obsA.radius : ℝ) := by
  refine ⟨by decide, by decide, by decide, ?_⟩
  have h1 : (((2/5 : ℚ) - obsA.px)^2 + ((0 : ℚ) - obsA.pz)^2 : ℚ) = 4/25 := by
    norm_num [obsA]
  rw [h1]
  have h2 := (sqrtLt_iff (4/25) (1/2)).mp (by norm_num)
  have h3 : ((-(1/2) : ℚ) : ℝ) + (obsA.radius : ℝ) = (((1:ℚ)/2 : ℚ) : ℝ) := by
    norm_num [obsA]
  rw [h3]
  exact h2

/-- C2 (amended): in any reachable index state whose stored obstacles all have
nonnegative radius, and for any query with nonnegative radius `r`,
`checkCircleCollision(x, z, r, ex)` reports a hit exactly when some stored,
non-excluded obstacle has 2D center distance to `(x, z)` strictly below
`r + obstacle.radius`. -/
theorem C2_circle_query_amended (cs : ℚ) (st : CMState) (x z r : ℚ)
    (ex : Option (List ObjType)) (hcs : 0 < cs) (hre : CMReachable cs st)
    (hnn : ∀ p ∈ st.objects, 0 ≤ p.2.radius) (hr : 0 ≤ r) :
    (checkCircleCollision cs st x z r ex).isSome = true ↔
      ∃ b : CollisionBounds, mget st.objects b.id = some b ∧
        notExcluded ex b.type = true ∧
        Real.sqrt (((x - b.px)^2 + (z - b.pz)^2 : ℚ) : ℝ)
          < (r : ℝ) + (b.radius : ℝ) := by
  have inv := cminv_reachable cs st hre
  unfold checkCircleCollision
  constructor
  · intro h
    rw [List.findSome?_isSome_iff] at h
    rcases h with ⟨key, hkey, hfk⟩
    cases hm : mget st.grid key with
    | none => rw [hm] at hfk; cases hfk
    | some objs =>
      rw [hm] at hfk
      simp only [Option.isSome_iff_exists] at hfk
      rcases hfk with ⟨o, hfind⟩
      have hmem : o ∈ objs := List.mem_of_find?_eq_some hfind
      have hhit : circleHit x z r ex o = true := List.find?_some hfind
      have hcell : inCell st key o := ⟨objs, hm, hmem⟩
      rcases (inv.reg key o).mp hcell with ⟨hobj, _⟩
      unfold circleHit at hhit
      rcases Bool.and_eq_true_iff.mp hhit with ⟨hex, hnum⟩
      have hnum2 : 0 < r + o.radius ∧
          (x - o.px)^2 + (z - o.pz)^2 < (r + o.radius)^2 := of_decide_eq_true hnum
      refine ⟨o, hobj, hex, ?_⟩
      have h5 := (sqrtLt_iff ((x - o.px)^2 + (z - o.pz)^2) (r + o.radius)).mp hnum2
      push_cast at h5 ⊢
      exact h5
  · rintro ⟨b, hobj, hex, hdist⟩
    have hrad : 0 ≤ b.radius := hnn (b.id, b) (mget_some_mem _ _ _ hobj)
    have hnum : 0 < r + b.radius ∧
        (x - b.px)^2 + (z - b.pz)^2 < (r + b.radius)^2 := by
      refine (sqrtLt_iff ((x - b.px)^2 + (z - b.pz)^2) (r + b.radius)).mpr ?_
      push_cast at hdist ⊢
      exact hdist
    have hm : 0 < r + b.radius := hnum.1
    have hx2 : (x - b.px)^2 < (r + b.radius)^2 := by
      nlinarith [sq_nonneg (z - b.pz), hnum.2]
    have hz2 : (z - b.pz)^2 < (r + b.radius)^2 := by
      nlinarith [sq_nonneg (x - b.px), hnum.2]
    have hxlo : b.px - b.radius ≤ x + r := by nlinarith [hx2, hm]
    have hxhi : x - r ≤ b.px + b.radius := by nlinarith [hx2, hm]
    have hzlo : b.pz - b.radius ≤ z + r := by nlinarith [hz2, hm]
    have hzhi : z - r ≤ b.pz + b.radius := by nlinarith [hz2, hm]
    set px : ℚ := max (x - r) (b.px - b.radius) with hpx
    set pz : ℚ := max (z - r) (b.pz - b.radius) with hpz
    have hpx1 : x - r ≤ px := le_max_left _ _
    have hpx2 : b.px - b.radius ≤ px := le_max_right _ _
    have hpx3 : px ≤ x + r := max_le (by linarith) hxlo
    have hpx4 : px ≤ b.px + b.radius := max_le hxhi (by linarith)
    have hpz1 : z - r ≤ pz := le_max_left _ _
    have hpz2 : b.pz - b.radius ≤ pz := le_max_right _ _
    have hpz3 : pz ≤ z + r := max_le (by linarith) hzlo
    have hpz4 : pz ≤ b.pz + b.radius := max_le hzhi (by linarith)
    set g : ℤ × ℤ := (qfloor (px / cs), qfloor (pz / cs)) with hg
    have hgkey : g ∈ gridRange (worldToGrid cs (x - r) (z - r))
        (worldToGrid cs (x + r) (z + r)) := by
      rw [mem_gridRange]
      unfold worldToGrid
      exact ⟨qfloor_mono cs _ _ hcs hpx1, qfloor_mono cs _ _ hcs hpx3,
        qfloor_mono cs _ _ hcs hpz1, qfloor_mono cs _ _ hcs hpz3⟩
    have hgcov : g ∈ coveredCells cs b := by
      rw [mem_coveredCells]
      exact ⟨qfloor_mono cs _ _ hcs hpx2, qfloor_mono cs _ _ hcs hpx4,
        qfloor_mono cs _ _ hcs hpz2, qfloor_mono cs _ _ hcs hpz4⟩
    rcases (inv.reg g b).mpr ⟨hobj, hgcov⟩ with ⟨objs, hq, hmem⟩
    rw [List.findSome?_isSome_iff]
    refine ⟨g, hgkey, ?_⟩
    rw [hq]
    have hhit : circleHit x z r ex b = true := by
      unfold circleHit
      rw [hex]
      simp only [Bool.true_and]
      exact decide_eq_true hnum
    have : (objs.find? (circleHit x z r ex)).isSome :=
      List.find?_isSome.mpr ⟨b, hmem, hhit⟩
    exact this

/-- C2 witness: the amended equivalence applied to the demo state (obstacle at
(10, 0, 10), radius 2): a radius-1 circle query at (10, 10) hits, and one at
(20, 20) does not — the scenario named by the claim. -/
theorem C2_witness :
    (checkCircleCollision 8 demoSt 10 10 1 none).isSome = true ∧
    (checkCircleCollision 8 demoSt 20 20 1 none).isSome = false := by
  constructor
  · refine (C2_circle_query_amended 8 demoSt 10 10 1 none (by norm_num)
      (CMReachable.add CMState.empty demoObs CMReachable.init)
      (by decide) (by norm_num)).mpr ⟨demoObs, by decide, by decide, ?_⟩
    have h1 : (((10 : ℚ) - demoObs.px)^2 + ((10 : ℚ) - demoObs.pz)^2 : ℚ) = 0 := by
      norm_num [demoObs]
    rw [h1]
    have h2 : ((0 : ℚ) : ℝ) = (0 : ℝ) := by norm_num
    rw [h2, Real.sqrt_zero]
    have h3 : (demoObs.radius : ℝ) = 2 := by norm_num [demoObs]
    rw [h3]
    norm_num
  · decide

/-! ## Claim C5 -/

/-- Does this operation read or write the binding of `id` in `allObjects`? -/
def touchesId (id : String) (op : CMOp) : Bool :=
  match op with
  | CMOp.add b => b.id = id
  | CMOp.remove i => i = id

/-- Last operation of the sequence that touches `id`, if any. -/
def lastTouch (id : String) : List CMOp → Option CMOp
  | [] => none
  | op :: rest =>
    match lastTouch id rest with
    | some o => some o
    | none => if touchesId id op then some op else none

theorem lastTouch_none_iff (id : String) (ops : List CMOp) :
    lastTouch id ops = none ↔ ∀ op ∈ ops, touchesId id op = false := by
  induction ops with
  | nil => simp [lastTouch]
  | cons op rest ih =>
    unfold lastTouch
    cases hl : lastTouch id rest with
    | some o =>
      simp only []
      constructor
      · intro h
        cases h
      · intro h
        have : ∀ q ∈ rest, touchesId id q = false :=
          fun q hq => h q (List.mem_cons_of_mem _ hq)
        rw [ih.mpr this] at hl
        cases hl
    | none =>
      simp only []
      by_cases ht : touchesId id op = true
      · rw [if_pos ht]
        constructor
        · intro h
          cases h
        · intro h
          rw [h op (List.mem_cons_self _ _)] at ht
          cases ht
      · rw [if_neg ht]
        constructor
        · intro _ q hq
          rcases List.mem_cons.mp hq with h1 | h1
          · rw [h1]
            cases hb : touchesId id op
            · rfl
            · exact absurd hb ht
          · exact ih.mp hl q h1
        · intro _
          rfl

theorem runCMOps_cons (cs : ℚ) (st : CMState) (op : CMOp) (ops : List CMOp) :
    runCMOps cs st (op :: ops) = runCMOps cs (applyCMOp cs st op) ops := rfl

/-- Lookup in `allObjects` after a batch of operations is decided by the last
operation touching the id. -/
theorem runCMOps_objects_mget (cs : ℚ) (ops : List CMOp) (st : CMState)
    (id : String) :
    mget (runCMOps cs st ops).objects id =
      (match lastTouch id ops with
      | some (CMOp.add b) => some b
      | some (CMOp.remove _) => none
      | none => mget st.objects id) := by
  induction ops generalizing st with
  | nil => rfl
  | cons op rest ih =>
    rw [runCMOps_cons, ih]
    have hstep : lastTouch id (op :: rest) =
        (match lastTouch id rest with
        | some o => some o
        | none => if touchesId id op then some op else none) := rfl
    rw [hstep]
    cases hl : lastTouch id rest with
    | some o => cases o <;> rfl
    | none =>
      simp only []
      cases op with
      | add b =>
        show mget (addCollisionObject cs st b).objects id = _
        rw [add_objects_mget]
        by_cases hb : b.id = id
        · have ht : touchesId id (CMOp.add b) = true := by
            unfold touchesId
            exact decide_eq_true hb
          rw [if_pos hb.symm, if_pos ht]
        · have ht : ¬ (touchesId id (CMOp.add b) = true) := by
            unfold touchesId
            simp [hb]
          rw [if_neg (fun hh => hb hh.symm), if_neg ht]
      | remove i =>
        show mget (removeCollisionObject cs st i).objects id = _
        rw [remove_objects_mget]
        by_cases hi : i = id
        · have ht : touchesId id (CMOp.remove i) = true := by
            unfold touchesId
            exact decide_eq_true hi
          rw [if_pos hi.symm, if_pos ht]
        · have ht : ¬ (touchesId id (CMOp.remove i) = true) := by
            unfold touchesId
            simp [hi]
          rw [if_neg (fun hh => hi hh.symm), if_neg ht]

/-- Is there a removal of `id` in the list? -/
def removesId (id : String) (ops : List CMOp) : Bool :=
  ops.any (fun op =>
    match op with
    | CMOp.remove i => i = id
    | CMOp.add _ => false)

/-- Every insertion in the sequence is followed, later in the sequence, by a
removal of the inserted id. -/
def allAddsRemoved : List CMOp → Bool
  | [] => true
  | CMOp.add b :: rest => removesId b.id rest && allAddsRemoved rest
  | CMOp.remove _ :: rest => allAddsRemoved rest

theorem lastTouch_ne_add (id : String) (ops : List CMOp)
    (h : allAddsRemoved ops = true) (b : CollisionBounds) :
    lastTouch id ops ≠ some (CMOp.add b) := by
  induction ops with
  | nil =>
    intro hh
    cases hh
  | cons op rest ih =>
    unfold lastTouch
    cases hl : lastTouch id rest with
    | some o =>
      simp only []
      have hrest : allAddsRemoved rest = true := by
        cases op with
        | add b0 =>
          exact (Bool.and_eq_true_iff.mp h).2
        | remove i => exact h
      rw [← hl]
      exact ih hrest
    | none =>
      simp only []
      cases op with
      | add b0 =>
        rcases Bool.and_eq_true_iff.mp h with ⟨hrem, _⟩
        by_cases ht : touchesId id (CMOp.add b0) = true
        · rw [if_pos ht]
          intro hh
          have hid : b0.id = id := by
            have h2 : decide (b0.id = id) = true := ht
            exact of_decide_eq_true h2
          rcases List.any_eq_true.mp hrem with ⟨op2, hop2, hop2t⟩
          have : touchesId id op2 = true := by
            cases op2 with
            | remove i =>
              have h3 : decide (i = b0.id) = true := hop2t
              have h4 : i = b0.id := of_decide_eq_true h3
              show decide (i = id) = true
              rw [h4, hid]
              simp
            | add _ => cases hop2t
          rw [(lastTouch_none_iff id rest).mp hl op2 hop2] at this
          cases this
        · rw [if_neg ht]
          intro hh
          cases hh
      | remove i =>
        by_cases ht : touchesId id (CMOp.remove i) = true
        · rw [if_pos ht]
          intro hh
          cases hh
        · rw [if_neg ht]
          intro hh
          cases hh

theorem cmreachable_runCMOps (cs : ℚ) (st : CMState) (h : CMReachable cs st)
    (ops : List CMOp) : CMReachable cs (runCMOps cs st ops) := by
  induction ops generalizing st with
  | nil => exact h
  | cons op rest ih =>
    rw [runCMOps_cons]
    cases op with
    | add b => exact ih _ (CMReachable.add st b h)
    | remove id => exact ih _ (CMReachable.remove st id h)

/-- The half-open cell `[g.1·cs, (g.1+1)·cs) × [g.2·cs, (g.2+1)·cs)` meets the
closed bounding square `[px-r, px+r] × [pz-r, pz+r]` of the obstacle. -/
def SquareIntersectsCell (cs : ℚ) (b : CollisionBounds) (g : ℤ × ℤ) : Prop :=
  ∃ px pz : ℚ,
    b.px - b.radius ≤ px ∧ px ≤ b.px + b.radius ∧
    b.pz - b.radius ≤ pz ∧ pz ≤ b.pz + b.radius ∧
    (g.1 : ℚ) * cs ≤ px ∧ px < ((g.1 : ℚ) + 1) * cs ∧
    (g.2 : ℚ) * cs ≤ pz ∧ pz < ((g.2 : ℚ) + 1) * cs

theorem coveredCells_iff_intersects (cs : ℚ) (b : CollisionBounds) (g : ℤ × ℤ)
    (hcs : 0 < cs) (hr : 0 ≤ b.radius) :
    g ∈ coveredCells cs b ↔ SquareIntersectsCell cs b g := by
  rw [mem_coveredCells]
  constructor
  · rintro ⟨h1, h2, h3, h4⟩
    rcases (floorRange_iff_overlap cs (b.px - b.radius) (b.px + b.radius) g.1
      hcs (by linarith)).mp ⟨h1, h2⟩ with ⟨px, hpx1, hpx2, hpx3, hpx4⟩
    rcases (floorRange_iff_overlap cs (b.pz - b.radius) (b.pz + b.radius) g.2
      hcs (by linarith)).mp ⟨h3, h4⟩ with ⟨pz, hpz1, hpz2, hpz3, hpz4⟩
    exact ⟨px, pz, hpx1, hpx2, hpz1, hpz2, hpx3, hpx4, hpz3, hpz4⟩
  · rintro ⟨px, pz, hpx1, hpx2, hpz1, hpz2, hpx3, hpx4, hpz3, hpz4⟩
    rcases (floorRange_iff_overlap cs (b.px - b.radius) (b.px + b.radius) g.1
      hcs (by linarith)).mpr ⟨px, hpx1, hpx2, hpx3, hpx4⟩ with ⟨h1, h2⟩
    rcases (floorRange_iff_overlap cs (b.pz - b.radius) (b.pz + b.radius) g.2
      hcs (by linarith)).mpr ⟨pz, hpz1, hpz2, hpz3, hpz4⟩ with ⟨h3, h4⟩
    exact ⟨h1, h2, h3, h4⟩

/-- Obstacle with a negative radius, for the C5 counterexample. -/
def obsNeg : CollisionBounds := ⟨"n", ObjType.tree, 1/2, 0, 1/2, -(1/10), 1⟩

def stNeg : CMState := addCollisionObject 8 CMState.empty obsNeg

/-- C5 counterexample: an obstacle inserted with negative radius (-1/10) is
registered in cell (0, 0) even though its bounding square
`[0.6, 0.4] × [0.6, 0.4]` is empty and so intersects no cell: registration is
not "exactly the cells whose bounds intersect the bounding square". -/
theorem C5_counterexample :
    mget stNeg.objects obsNeg.id = some obsNeg ∧
    inCell stNeg (0, 0) obsNeg ∧
    ¬ SquareIntersectsCell 8 obsNeg (0, 0) := by
  refine ⟨by decide, ⟨[obsNeg], by decide, List.mem_singleton.mpr rfl⟩, ?_⟩
  rintro ⟨px, pz, h1, h2, _, _, _, _, _, _⟩
  simp only [obsNeg] at h1 h2
  norm_num at h1 h2
  linarith

/-- C5 (amended): (1) after any operation sequence in which every inserted id
is later removed, the spatial grid holds 0 cells; (2) in every reachable
state every existing cell is non-empty; and (3) every stored obstacle with
nonnegative radius is registered in exactly the cells (half-open, as the
floor-based grid defines them) whose bounds intersect its bounding square.
The nonnegative-radius proviso is forced by the counterexample. -/
theorem C5_grid_cells_amended (cs : ℚ) :
    (∀ ops : List CMOp, allAddsRemoved ops = true →
      (runCMOps cs CMState.empty ops).grid = []) ∧
    (∀ st : CMState, CMReachable cs st →
      (∀ g objs, mget st.grid g = some objs → objs ≠ []) ∧
      (0 < cs → ∀ b : CollisionBounds, mget st.objects b.id = some b →
        0 ≤ b.radius → ∀ g : ℤ × ℤ,
          inCell st g b ↔ SquareIntersectsCell cs b g)) := by
  constructor
  · intro ops hops
    have hreach : CMReachable cs (runCMOps cs CMState.empty ops) :=
      cmreachable_runCMOps cs CMState.empty CMReachable.init ops
    have inv := cminv_reachable cs _ hreach
    have hobjnone : ∀ id, mget (runCMOps cs CMState.empty ops).objects id
        = none := by
      intro id
      rw [runCMOps_objects_mget]
      cases hl : lastTouch id ops with
      | none => rfl
      | some o =>
        cases o with
        | add b => exact absurd hl (lastTouch_ne_add id ops hops b)
        | remove i => rfl
    rw [List.eq_nil_iff_forall_not_mem]
    intro p hp
    have hks := mget_isSome_of_mem _ p hp
    rcases Option.isSome_iff_exists.mp hks with ⟨objs, hobjs⟩
    rcases List.exists_mem_of_ne_nil objs (inv.cellNonempty p.1 objs hobjs)
      with ⟨b, hb⟩
    have hcell : inCell (runCMOps cs CMState.empty ops) p.1 b := ⟨objs, hobjs, hb⟩
    rcases (inv.reg p.1 b).mp hcell with ⟨hobj, _⟩
    rw [hobjnone b.id] at hobj
    cases hobj
  · intro st hre
    have inv := cminv_reachable cs st hre
    refine ⟨inv.cellNonempty, ?_⟩
    intro hcs b hobj hr g
    rw [inv.reg g b]
    rw [coveredCells_iff_intersects cs b g hcs hr]
    constructor
    · rintro ⟨_, h⟩
      exact h
    · intro h
      exact ⟨hobj, h⟩

/-- C5 witness: inserting the demo obstacle and then removing it leaves a grid
with 0 cells, and the registration equivalence places obstacle "a" (radius 1
at the origin) in cell (0, 0). -/
theorem C5_witness :
    (runCMOps 8 CMState.empty [CMOp.add demoObs, CMOp.remove "o"]).grid = [] ∧
    inCell stA (0, 0) obsA := by
  have h := C5_grid_cells_amended 8
  refine ⟨h.1 _ (by decide), ?_⟩
  refine ((h.2 stA (CMReachable.add CMState.empty obsA CMReachable.init)).2
    (by norm_num) obsA (by decide) (by decide) ((0 : ℤ), (0 : ℤ))).mpr ?_
  refine ⟨0, 0, ?_, ?_, ?_, ?_, ?_, ?_, ?_, ?_⟩ <;> norm_num [obsA]

/-- Boolean key membership (structural, so witnesses evaluate). -/
def keyMem {α : Type} [DecidableEq α] (a : α) : List α → Bool
  | [] => false
  | b :: l => if b = a then true else keyMem a l

theorem keyMem_iff {α : Type} [DecidableEq α] (a : α) (l : List α) :
    keyMem a l = true ↔ a ∈ l := by
  induction l with
  | nil => simp [keyMem]
  | cons b l ih =>
    by_cases h : b = a
    · simp [keyMem, h]
    · rw [show keyMem a (b :: l) = keyMem a l by simp [keyMem, h], ih]
      constructor
      · exact List.mem_cons_of_mem _
      · intro hm
        rcases List.mem_cons.mp hm with hh | hh
        · exact absurd hh.symm h
        · exact hh

/-! ## ChunkManager (src/app/components/terrain/ChunkManager.ts)

The claims about the chunk cache concern only residency bookkeeping: which
chunk keys are in `loadedChunks`, their `lastAccessed` stamps, and the
tracked player chunk.  A `LoadedChunk` is therefore modelled by its
`lastAccessed` time; the generated `ChunkData`, render objects, LOD level and
object-type list it carries are never consulted by `updatePlayerPosition` or
`cleanupOldChunks`.  `Date.now()` is an explicit `now` argument. -/

/-- Residency state of a `ChunkManager`: `loadedChunks` keyed by chunk
coordinate (the `"x,z"` string key is injective on coordinates) carrying
`lastAccessed`, plus `currentPlayerChunk`.  The constructor arguments
`chunkSize`, `renderRadius`, `maxCachedChunks` are passed to operations. -/
structure ChState : Type where
  loaded : List ((ℤ × ℤ) × ℚ)
  player : ℤ × ℤ
deriving Repr

/-- The fresh manager: no chunks, player chunk (0, 0). -/
def ChState.init : ChState := ⟨[], (0, 0)⟩

/-- `worldToChunk(worldX, worldZ)`. -/
def worldToChunk (csz wx wz : ℚ) : ℤ × ℤ :=
  (qfloor (wx / csz), qfloor (wz / csz))

/-- Chebyshev distance between chunk coordinates, as used by
`cleanupOldChunks` (`Math.max(|dx|, |dz|)`). -/
def cheb (a b : ℤ × ℤ) : ℤ := max (a.1 - b.1).natAbs (a.2 - b.2).natAbs

/-- `getChunk(coord)` at time `now`: generate-and-store when absent, else
refresh `lastAccessed`.  Both paths leave the binding at `now`. -/
def getChunk (now : ℚ) (c : ℤ × ℤ) (st : ChState) : ChState :=
  ⟨mset st.loaded c now, st.player⟩

/-- `updatePlayerPosition(worldX, worldZ)`: no-op when the chunk is
unchanged; otherwise retarget the player chunk and report
`{chunksToLoad = required - loaded, chunksToUnload = loaded - required}`,
where `required` is the `renderRadius`-Chebyshev square around the new
chunk, built in row-major order. -/
def updatePlayerPosition (csz : ℚ) (rr : ℤ) (st : ChState) (wx wz : ℚ) :
    ChState × List (ℤ × ℤ) × List (ℤ × ℤ) :=
  let np := worldToChunk csz wx wz
  if np = st.player then (st, [], []) else
    let required := gridRange (np.1 - rr, np.2 - rr) (np.1 + rr, np.2 + rr)
    let toLoad := required.filter (fun c => !(mget st.loaded c).isSome)
    let toUnload := (mkeys st.loaded).filter (fun k => !(keyMem k required))
    (⟨st.loaded, np⟩, toLoad, toUnload)

/-- Stable insertion of `x` into `l`: `x` goes before the first element it
compares `le` to, so earlier elements stay first among ties. -/
def insertSorted {α : Type} (le : α → α → Bool) (x : α) : List α → List α
  | [] => [x]
  | y :: l => if le x y then x :: y :: l else y :: insertSorted le x l

/-- Stable sort by a Boolean comparator.  JS `Array.prototype.sort` with a
total comparator is specified to be a stable sort, and all stable sorts
under the same total preorder produce the same list, so this structurally
recursive insertion sort is extensionally the source's sort. -/
def stableSortBy {α : Type} (le : α → α → Bool) : List α → List α
  | [] => []
  | x :: l => insertSorted le x (stableSortBy le l)

theorem insertSorted_perm {α : Type} (le : α → α → Bool) (x : α)
    (l : List α) : List.Perm (insertSorted le x l) (x :: l) := by
  induction l with
  | nil => exact List.Perm.refl _
  | cons y l ih =>
    by_cases h : le x y = true
    · rw [show insertSorted le x (y :: l) = x :: y :: l by
        simp [insertSorted, h]]
    · rw [show insertSorted le x (y :: l) = y :: insertSorted le x l by
        simp [insertSorted, h]]
      exact List.Perm.trans (List.Perm.cons y ih) (List.Perm.swap x y l)

theorem stableSortBy_perm {α : Type} (le : α → α → Bool) (l : List α) :
    List.Perm (stableSortBy le l) l := by
  induction l with
  | nil => exact List.Perm.refl _
  | cons x l ih =>
    exact List.Perm.trans (insertSorted_perm le x (stableSortBy le l))
      (List.Perm.cons x ih)

/-- `cleanupOldChunks()`: when over capacity, sort by `lastAccessed`
ascending (stable, as JS `Array.sort`), take the oldest
`size - maxCachedChunks` candidates, and evict those strictly outside the
render radius of the current player chunk, returning the removed keys. -/
def cleanupOldChunks (rr : ℤ) (maxC : ℕ) (st : ChState) :
    ChState × List (ℤ × ℤ) :=
  if st.loaded.length ≤ maxC then (st, []) else
    let sorted := stableSortBy (fun a b : (ℤ × ℤ) × ℚ => decide (a.2 ≤ b.2))
      st.loaded
    let cand := sorted.take (st.loaded.length - maxC)
    let removedKeys :=
      (cand.filter (fun p => decide (rr < cheb p.1 st.player))).map
        (fun p => p.1)
    (⟨removedKeys.foldl mdel st.loaded, st.player⟩, removedKeys)

/-- States reachable by the operations the claim quantifies over. -/
inductive ChReachable (csz : ℚ) (rr : ℤ) (maxC : ℕ) : ChState → Prop
  | init : ChReachable csz rr maxC ChState.init
  | get (st : ChState) (now : ℚ) (c : ℤ × ℤ) (h : ChReachable csz rr maxC st) :
      ChReachable csz rr maxC (getChunk now c st)
  | update (st : ChState) (wx wz : ℚ) (h : ChReachable csz rr maxC st) :
      ChReachable csz rr maxC (updatePlayerPosition csz rr st wx wz).1
  | cleanup (st : ChState) (h : ChReachable csz rr maxC st) :
      ChReachable csz rr maxC (cleanupOldChunks rr maxC st).1

/-! ## Claim C3 -/

theorem mdel_eq_filter {α β : Type} [DecidableEq α] (m : List (α × β)) (k : α) :
    mdel m k = m.filter (fun p => decide (¬ p.1 = k)) := by
  induction m with
  | nil => rfl
  | cons p m ih =>
    by_cases h : p.1 = k
    · rw [show mdel (p :: m) k = mdel m k by simp [mdel, h], ih,
        show ((p :: m).filter (fun q => decide (¬ q.1 = k))
          = m.filter (fun q => decide (¬ q.1 = k))) by simp [h]]
    · rw [show mdel (p :: m) k = p :: mdel m k by simp [mdel, h], ih,
        show ((p :: m).filter (fun q => decide (¬ q.1 = k))
          = p :: m.filter (fun q => decide (¬ q.1 = k))) by simp [h]]

theorem foldl_mdel {α β : Type} [DecidableEq α] (keys : List α)
    (l : List (α × β)) :
    keys.foldl mdel l = l.filter (fun p => !(keyMem p.1 keys)) := by
  induction keys generalizing l with
  | nil =>
    rw [List.foldl_nil]
    refine (List.filter_eq_self.mpr ?_).symm
    intro p _
    rfl
  | cons k ks ih =>
    rw [List.foldl_cons, ih, mdel_eq_filter, List.filter_filter]
    refine List.filter_congr ?_
    intro p _
    by_cases h1 : p.1 = k <;> by_cases h2 : keyMem p.1 ks = true
    · simp [keyMem, h1, h2]
    · simp only [keyMem, h1, if_pos rfl]
      simp [h1]
    · simp only [Bool.not_eq_true] at h2 ⊢
      rw [show keyMem p.1 (k :: ks) = true by
        rw [keyMem_iff]
        rw [keyMem_iff] at h2
        exact List.mem_cons_of_mem _ h2]
      simp [h1, h2]
    · simp only [Bool.not_eq_true] at h2 ⊢
      rw [show keyMem p.1 (k :: ks) = false by
        cases hk : keyMem p.1 (k :: ks)
        · rfl
        · rw [keyMem_iff] at hk
          rcases List.mem_cons.mp hk with hh | hh
          · exact absurd hh h1
          · rw [← keyMem_iff] at hh
            rw [hh] at h2
            cases h2]
      simp [h1, h2]

/-- Demo chunk-cache state: three chunks loaded at times 1, 2, 3, for the C3
witness. -/
def chDemo : ChState :=
  getChunk 3 (5, 5) (getChunk 2 (3, 3) (getChunk 1 (0, 0) ChState.init))

/-- C3 counterexample: after a single `updatePlayerPosition` call moving the
tracked chunk, the chunk the player now stands in lies within the render
radius but is NOT in the loaded set — `updatePlayerPosition` only reports
which chunks the caller should load.  So "every chunk within that radius is
always present in the loaded set" fails. -/
theorem C3_counterexample :
    (updatePlayerPosition 50 2 ChState.init 80 0).1.player = (1, 0) ∧
    cheb (1, 0) (1, 0) ≤ 2 ∧
    mget (updatePlayerPosition 50 2 ChState.init 80 0).1.loaded (1, 0)
      = none := by decide

/-- C3 (amended): for every chunk-cache state, `cleanupOldChunks` keeps the
player chunk, evicts only chunks strictly outside the Chebyshev render
radius (never a within-radius chunk), and leaves at most `maxCachedChunks`
loaded chunks outside the radius.  Chunks inside the radius need not be
resident at all, as the counterexample shows. -/
theorem C3_cleanup_amended (rr : ℤ) (maxC : ℕ) (st : ChState) :
    (cleanupOldChunks rr maxC st).1.player = st.player ∧
    (∀ k ∈ (cleanupOldChunks rr maxC st).2, rr < cheb k st.player) ∧
    (∀ p ∈ st.loaded, cheb p.1 st.player ≤ rr →
      p ∈ (cleanupOldChunks rr maxC st).1.loaded) ∧
    (cleanupOldChunks rr maxC st).1.loaded.countP
      (fun p => decide (rr < cheb p.1 st.player)) ≤ maxC := by
  by_cases hle : st.loaded.length ≤ maxC
  · have heq : cleanupOldChunks rr maxC st = (st, []) := by
      unfold cleanupOldChunks
      rw [if_pos hle]
    rw [heq]
    refine ⟨rfl, ?_, ?_, ?_⟩
    · intro k hk
      cases hk
    · intro p hp _
      exact hp
    · exact le_trans (List.countP_le_length _) hle
  · set sorted : List ((ℤ × ℤ) × ℚ) :=
      stableSortBy (fun a b : (ℤ × ℤ) × ℚ => decide (a.2 ≤ b.2)) st.loaded
      with hsorted
    set kn : ℕ := st.loaded.length - maxC with hkn
    set cand : List ((ℤ × ℤ) × ℚ) := sorted.take kn with hcand
    set removedKeys : List (ℤ × ℤ) :=
      (cand.filter (fun p => decide (rr < cheb p.1 st.player))).map
        (fun p => p.1) with hrk
    have heq : cleanupOldChunks rr maxC st =
        (⟨removedKeys.foldl mdel st.loaded, st.player⟩, removedKeys) := by
      unfold cleanupOldChunks
      rw [if_neg hle]
    rw [heq]
    have hperm : List.Perm sorted st.loaded := stableSortBy_perm _ _
    have hfinal : removedKeys.foldl mdel st.loaded
        = st.loaded.filter (fun p => !(keyMem p.1 removedKeys)) :=
      foldl_mdel _ _
    refine ⟨rfl, ?_, ?_, ?_⟩
    · intro k hk
      rcases List.mem_map.mp hk with ⟨p, hpf, hp1⟩
      have hpout := (List.mem_filter.mp hpf).2
      rw [← hp1]
      exact of_decide_eq_true hpout
    · intro p hp hin
      show p ∈ removedKeys.foldl mdel st.loaded
      rw [hfinal]
      refine List.mem_filter.mpr ⟨hp, ?_⟩
      cases hkm : keyMem p.1 removedKeys
      · rfl
      · rw [keyMem_iff] at hkm
        rcases List.mem_map.mp hkm with ⟨q, hqf, hq1⟩
        have hq := of_decide_eq_true ((List.mem_filter.mp hqf).2)
        rw [hq1] at hq
        exact absurd hin (not_le.mpr hq)
    · show (removedKeys.foldl mdel st.loaded).countP
        (fun p => decide (rr < cheb p.1 st.player)) ≤ maxC
      rw [hfinal]
      have hpermf : List.Perm
          (sorted.filter (fun p => !(keyMem p.1 removedKeys)))
          (st.loaded.filter (fun p => !(keyMem p.1 removedKeys))) :=
        hperm.filter _
      rw [← hpermf.countP_eq]
      have hsplit : cand ++ sorted.drop kn = sorted :=
        List.take_append_drop kn sorted
      rw [show sorted.filter (fun p => !(keyMem p.1 removedKeys))
          = cand.filter (fun p => !(keyMem p.1 removedKeys))
            ++ (sorted.drop kn).filter (fun p => !(keyMem p.1 removedKeys)) by
        rw [← List.filter_append, hsplit]]
      rw [List.countP_append]
      have h1 : (cand.filter (fun p => !(keyMem p.1 removedKeys))).countP
          (fun p => decide (rr < cheb p.1 st.player)) = 0 := by
        rw [List.countP_eq_zero]
        intro p hpf hPout
        rcases List.mem_filter.mp hpf with ⟨hpc, hnotR⟩
        have hp1 : p.1 ∈ removedKeys :=
          List.mem_map.mpr ⟨p, List.mem_filter.mpr ⟨hpc, hPout⟩, rfl⟩
        rw [← keyMem_iff] at hp1
        rw [hp1] at hnotR
        cases hnotR
      have h2 : ((sorted.drop kn).filter
          (fun p => !(keyMem p.1 removedKeys))).countP
          (fun p => decide (rr < cheb p.1 st.player)) ≤ maxC := by
        refine le_trans (List.countP_le_length _) ?_
        refine le_trans (List.length_filter_le _ _) ?_
        rw [List.length_drop, hperm.length_eq]
        omega
      omega

/-- C3 witness: the amended theorem applied to the concrete demo cache (three
chunks at times 1..3, `renderRadius = 0`, `maxCachedChunks = 1`): after
cleanup at most one out-of-radius chunk remains and the player's own chunk
entry survives. -/
theorem C3_witness :
    ((cleanupOldChunks 0 1 chDemo).1.loaded.countP
      (fun p => decide ((0 : ℤ) < cheb p.1 chDemo.player)) ≤ 1) ∧
    ((0, 0), (1 : ℚ)) ∈ (cleanupOldChunks 0 1 chDemo).1.loaded := by
  have h := C3_cleanup_amended 0 1 chDemo
  exact ⟨h.2.2.2, h.2.2.1 ((0, 0), (1 : ℚ)) (by decide) (by decide)⟩

/-! ## Claim C8 -/

theorem cheb_le_iff (a b : ℤ × ℤ) (r : ℤ) :
    cheb a b ≤ r ↔
      b.1 - r ≤ a.1 ∧ a.1 ≤ b.1 + r ∧ b.2 - r ≤ a.2 ∧ a.2 ≤ b.2 + r := by
  unfold cheb
  rw [max_le_iff]
  omega

/-- C8 counterexample: with `chunkSize = 16`, `renderRadius = 0`, moving the
tracked position from chunk (0,0) to (1,0) produces `toLoad = [(1,0)]` — the
0-radius neighborhood — not the 1-radius neighborhood the claim names:
chunk (0,1) is within Chebyshev distance 1 of (1,0) and is not resident, yet
is not in `toLoad`. -/
theorem C8_counterexample :
    (updatePlayerPosition 16 0 ChState.init 16 0).2.1 = [(1, 0)] ∧
    cheb (0, 1) (1, 0) ≤ 1 ∧
    mget ChState.init.loaded (0, 1) = none ∧
    (0, 1) ∉ (updatePlayerPosition 16 0 ChState.init 16 0).2.1 := by decide

/-- C8 (amended): `updatePlayerPosition` is a no-op returning empty load and
unload lists when the new world position maps to the tracked chunk;
otherwise it retargets the player chunk and returns `toLoad` = the chunks
within Chebyshev distance `renderRadius` (not 1) of the new chunk that are
not loaded, and `toUnload` = the loaded chunk keys outside that radius. -/
theorem C8_update_amended (csz : ℚ) (rr : ℤ) (st : ChState) (wx wz : ℚ) :
    (worldToChunk csz wx wz = st.player →
      updatePlayerPosition csz rr st wx wz = (st, [], [])) ∧
    (worldToChunk csz wx wz ≠ st.player →
      (updatePlayerPosition csz rr st wx wz).1
          = ⟨st.loaded, worldToChunk csz wx wz⟩ ∧
      (∀ c : ℤ × ℤ, c ∈ (updatePlayerPosition csz rr st wx wz).2.1 ↔
        (cheb c (worldToChunk csz wx wz) ≤ rr ∧ mget st.loaded c = none)) ∧
      (∀ k : ℤ × ℤ, k ∈ (updatePlayerPosition csz rr st wx wz).2.2 ↔
        (k ∈ mkeys st.loaded ∧ rr < cheb k (worldToChunk csz wx wz)))) := by
  set np : ℤ × ℤ := worldToChunk csz wx wz with hnp
  constructor
  · intro h
    unfold updatePlayerPosition
    rw [← hnp, if_pos h]
  · intro h
    have heq : updatePlayerPosition csz rr st wx wz =
        (⟨st.loaded, np⟩,
          (gridRange (np.1 - rr, np.2 - rr) (np.1 + rr, np.2 + rr)).filter
            (fun c => !(mget st.loaded c).isSome),
          (mkeys st.loaded).filter (fun k =>
            !(keyMem k (gridRange (np.1 - rr, np.2 - rr)
              (np.1 + rr, np.2 + rr))))) := by
      unfold updatePlayerPosition
      rw [← hnp, if_neg h]
    rw [heq]
    refine ⟨rfl, ?_, ?_⟩
    · intro c
      rw [List.mem_filter, mem_gridRange, cheb_le_iff]
      constructor
      · rintro ⟨⟨h1, h2, h3, h4⟩, h5⟩
        refine ⟨⟨by omega, by omega, by omega, by omega⟩, ?_⟩
        cases hm : mget st.loaded c with
        | none => rfl
        | some v =>
          rw [hm] at h5
          cases h5
      · rintro ⟨⟨h1, h2, h3, h4⟩, h5⟩
        refine ⟨⟨by omega, by omega, by omega, by omega⟩, ?_⟩
        rw [h5]
        rfl
    · intro k
      rw [List.mem_filter]
      constructor
      · rintro ⟨h1, h2⟩
        refine ⟨h1, ?_⟩
        rw [← not_le]
        intro hle
        have : keyMem k (gridRange (np.1 - rr, np.2 - rr)
            (np.1 + rr, np.2 + rr)) = true := by
          rw [keyMem_iff, mem_gridRange]
          rw [cheb_le_iff] at hle
          exact ⟨by omega, by omega, by omega, by omega⟩
        rw [this] at h2
        cases h2
      · rintro ⟨h1, h2⟩
        refine ⟨h1, ?_⟩
        cases hkm : keyMem k (gridRange (np.1 - rr, np.2 - rr)
            (np.1 + rr, np.2 + rr))
        · rfl
        · rw [keyMem_iff, mem_gridRange] at hkm
          have hle : cheb k np ≤ rr := by
            rw [cheb_le_iff]
            exact ⟨by omega, by omega, by omega, by omega⟩
          exact absurd h2 (not_lt.mpr hle)

/-- C8 witness: the amended characterization at concrete inputs — staying in
chunk (0,0) is a no-op, and the move from (0,0) to (1,0) with radius 0 loads
exactly (1,0). -/
theorem C8_witness :
    updatePlayerPosition 16 0 ChState.init 5 5 = (ChState.init, [], []) ∧
    (1, 0) ∈ (updatePlayerPosition 16 0 ChState.init 16 0).2.1 := by
  have h1 := (C8_update_amended 16 0 ChState.init 5 5).1 (by decide)
  have h2 := ((C8_update_amended 16 0 ChState.init 16 0).2 (by decide)).2.1 (1, 0)
  exact ⟨h1, h2.mpr ⟨by decide, by decide⟩⟩

/-! ## PathfindingManager (src/app/components/pathfinding/PathfindingManager.ts)

Conventions: node keys `"x,z"` are the integer pairs; a `PathNode` object is
split into its key and a `NodeData` record held in the `allNodes` map, which
is the single store the mutable JS objects alias (`openSet` holds keys, so
an update through `allNodes` is visible to the open list exactly as the
shared JS object is); `walkable: true` is stored but never read in the
source and is dropped.  The fresh-node path (create with `g = Infinity`,
then immediately overwrite since `tentativeG < Infinity`) is modelled by
creating the node directly with its final fields, which is the same state.
`Array.prototype.sort` (stable) is `stableSortBy`.  `reconstructPath` walks
parent links with fuel `allNodes.length + 1`: parent links always form a
`g`-decreasing chain, so the walk visits distinct nodes and the fuel is
never exhausted. -/

/-- Movement classes (`'ground' | 'flying' | 'climbing'`). -/
inductive EntityType : Type
  | ground
  | flying
  | climbing
deriving DecidableEq, Repr

/-- `PathRequest` of the source. -/
structure PathRequest : Type where
  id : String
  startX : ℚ
  startZ : ℚ
  goalX : ℚ
  goalZ : ℚ
  entityRadius : ℚ
  maxDistance : Option ℚ
  allowPartialPath : Option Bool
  entityType : Option EntityType
deriving Repr

/-- `PathResult` of the source. -/
structure PathResult : Type where
  found : Bool
  path : List (ℚ × ℚ)
  length : ℕ
  cost : ℚ
deriving DecidableEq, Repr

/-- Constructor-time configuration of a `PathfindingManager`: the collision
manager's `cellSize` plus `nodeSize`, `maxSearchNodes`, `cacheTimeout`
(defaults 8, 1, 1000, 5000). -/
structure PF : Type where
  cellSize : ℚ
  nodeSize : ℚ
  maxSearchNodes : ℕ
  cacheTimeout : ℚ
deriving Repr

/-- Mutable fields of a `PathNode` (besides its coordinates). -/
structure NodeData : Type where
  g : ℚ
  h : ℚ
  f : ℚ
  parent : Option (ℤ × ℤ)
deriving DecidableEq, Repr

/-- `worldToNode`. -/
def worldToNode (ns x z : ℚ) : ℤ × ℤ := (qfloor (x / ns), qfloor (z / ns))

/-- `nodeToWorld` (cell center). -/
def nodeToWorld (ns : ℚ) (n : ℤ × ℤ) : ℚ × ℚ :=
  ((n.1 : ℚ) * ns + ns / 2, (n.2 : ℚ) * ns + ns / 2)

/-- `heuristic` (Manhattan distance). -/
def heuristic (x1 z1 x2 z2 : ℤ) : ℚ :=
  ((x1 - x2).natAbs : ℚ) + ((z1 - z2).natAbs : ℚ)

/-- `getNeighbors`, in source order. -/
def getNeighbors (x z : ℤ) : List (ℤ × ℤ) :=
  [(x - 1, z), (x + 1, z), (x, z - 1), (x, z + 1),
    (x - 1, z - 1), (x + 1, z - 1), (x - 1, z + 1), (x + 1, z + 1)]

/-- `getMoveCost`: diagonal steps cost 1.414, orthogonal 1.0; climbing
multiplies by 0.8, flying and ground pay the base cost. -/
def getMoveCost (fromX fromZ toX toZ : ℤ) (et : EntityType) : ℚ :=
  let dx := (toX - fromX).natAbs
  let dz := (toZ - fromZ).natAbs
  let baseCost : ℚ := if dx = 1 ∧ dz = 1 then 1.414 else 1.0
  match et with
  | EntityType.flying => baseCost
  | EntityType.climbing => baseCost * 0.8
  | EntityType.ground => baseCost

/-- `isNodeWalkable`: circle query at the node's world center; flying ignores
trees/rocks/shops, climbing ignores rocks, ground ignores nothing. -/
def isNodeWalkable (ccs : ℚ) (cm : CMState) (ns : ℚ) (nodeX nodeZ : ℤ)
    (r : ℚ) (et : EntityType) : Bool :=
  let w := nodeToWorld ns (nodeX, nodeZ)
  match et with
  | EntityType.flying =>
    !(checkCircleCollision ccs cm w.1 w.2 r
      (some [ObjType.tree, ObjType.rock, ObjType.shop])).isSome
  | EntityType.climbing =>
    !(checkCircleCollision ccs cm w.1 w.2 r (some [ObjType.rock])).isSome
  | EntityType.ground =>
    !(checkCircleCollision ccs cm w.1 w.2 r none).isSome

/-- `findNearestWalkableNode`: expanding rings of radius 1..maxRadius, each
ring scanned in the source's `dx`/`dz` loop order, skipping interior points;
first walkable node wins. -/
def findNearestWalkableNode (ccs : ℚ) (cm : CMState) (ns : ℚ) (tx tz : ℤ)
    (r : ℚ) (et : EntityType) (maxRadius : ℕ) : Option (ℤ × ℤ) :=
  (List.range maxRadius).findSome? (fun ri =>
    let rad : ℤ := (ri : ℤ) + 1
    ((intRange (-rad) rad).flatMap (fun dx =>
      (intRange (-rad) rad).filterMap (fun dz =>
        if dx.natAbs = ri + 1 ∨ dz.natAbs = ri + 1 then
          some (tx + dx, tz + dz)
        else none))).find?
      (fun c => isNodeWalkable ccs cm ns c.1 c.2 r et))

/-- The `f` value a key currently has in `allNodes` (keys in the open list
always have one). -/
def fOf (allNodes : List ((ℤ × ℤ) × NodeData)) (k : ℤ × ℤ) : ℚ :=
  ((mget allNodes k).map NodeData.f).getD 0

def gOf (allNodes : List ((ℤ × ℤ) × NodeData)) (k : ℤ × ℤ) : ℚ :=
  ((mget allNodes k).map NodeData.g).getD 0

def hOf (allNodes : List ((ℤ × ℤ) × NodeData)) (k : ℤ × ℤ) : ℚ :=
  ((mget allNodes k).map NodeData.h).getD 0

/-- One neighbor step of the A* inner loop. -/
def processNeighbor (ccs ns : ℚ) (cm : CMState) (er : ℚ) (et : EntityType)
    (maxD : ℚ) (startN goalN cur : ℤ × ℤ) (closed : List (ℤ × ℤ))
    (acc : List (ℤ × ℤ) × List ((ℤ × ℤ) × NodeData)) (nb : ℤ × ℤ) :
    List (ℤ × ℤ) × List ((ℤ × ℤ) × NodeData) :=
  if keyMem nb closed then acc
  else if !(isNodeWalkable ccs cm ns nb.1 nb.2 er et) then acc
  else if maxD < heuristic startN.1 startN.2 nb.1 nb.2 then acc
  else
    let tg := gOf acc.2 cur + getMoveCost cur.1 cur.2 nb.1 nb.2 et
    match mget acc.2 nb with
    | none =>
      let hn := heuristic nb.1 nb.2 goalN.1 goalN.2
      (acc.1 ++ [nb], mset acc.2 nb ⟨tg, hn, tg + hn, some cur⟩)
    | some nd =>
      if tg < nd.g then
        (if keyMem nb acc.1 then acc.1 else acc.1 ++ [nb],
          mset acc.2 nb ⟨tg, nd.h, tg + nd.h, some cur⟩)
      else acc

/-- Parent-link walk of `reconstructPath`, prepending world positions. -/
def chainToPath (ns : ℚ) (allNodes : List ((ℤ × ℤ) × NodeData)) :
    ℕ → (ℤ × ℤ) → List (ℚ × ℚ) → List (ℚ × ℚ)
  | 0, _, acc => acc
  | fuel + 1, k, acc =>
    let acc2 := nodeToWorld ns k :: acc
    match mget allNodes k with
    | none => acc2
    | some nd =>
      match nd.parent with
      | none => acc2
      | some p => chainToPath ns allNodes fuel p acc2

/-- `reconstructPath`. -/
def reconstructPath (ns : ℚ) (allNodes : List ((ℤ × ℤ) × NodeData))
    (goalKey : ℤ × ℤ) : PathResult :=
  let path := chainToPath ns allNodes (allNodes.length + 1) goalKey []
  ⟨true, path, path.length, gOf allNodes goalKey⟩

/-- Exit value of the A* main loop when the open set empties or the node
budget is exhausted: a partial path to the best node if allowed, else
failure. -/
def aStarFinish (ns : ℚ) (allNodes : List ((ℤ × ℤ) × NodeData))
    (startN : ℤ × ℤ) (allowPartial : Bool) (best : (ℤ × ℤ) × ℚ) : PathResult :=
  if allowPartial ∧ best.1 ≠ startN then reconstructPath ns allNodes best.1
  else ⟨false, [], 0, 0⟩

/-- The A* main loop; `remaining = maxSearchNodes - searchedNodes` ticks down
once per iteration, `best` tracks the key and `h` of the
lowest-heuristic node expanded so far. -/
def aStarLoop (ccs ns maxD : ℚ) (cm : CMState) (er : ℚ) (et : EntityType)
    (startN goalN : ℤ × ℤ) (allowPartial : Bool) :
    ℕ → List (ℤ × ℤ) → List ((ℤ × ℤ) × NodeData) → List (ℤ × ℤ) →
    (ℤ × ℤ) × ℚ → PathResult
  | 0, _, allNodes, _, best => aStarFinish ns allNodes startN allowPartial best
  | _ + 1, [], allNodes, _, best =>
    aStarFinish ns allNodes startN allowPartial best
  | remaining + 1, op0 :: ops, allNodes, closed, best =>
    match stableSortBy (fun a b => decide (fOf allNodes a ≤ fOf allNodes b))
      (op0 :: ops) with
    | [] => aStarFinish ns allNodes startN allowPartial best
    | cur :: restOpen =>
      if cur = goalN then reconstructPath ns allNodes cur
      else
        let best2 := if hOf allNodes cur < best.2 then (cur, hOf allNodes cur)
          else best
        let closed2 := cur :: closed
        let acc := (getNeighbors cur.1 cur.2).foldl
          (processNeighbor ccs ns cm er et maxD startN goalN cur closed2)
          (restOpen, allNodes)
        aStarLoop ccs ns maxD cm er et startN goalN allowPartial
          remaining acc.1 acc.2 closed2 best2

/-- The search phase of `aStar`, after goal resolution. -/
def aStarSearch (pf : PF) (cm : CMState) (er maxD : ℚ) (et : EntityType)
    (allowPartial : Bool) (startN goalN : ℤ × ℤ) : PathResult :=
  let startH := heuristic startN.1 startN.2 goalN.1 goalN.2
  aStarLoop pf.cellSize pf.nodeSize maxD cm er et startN goalN allowPartial
    pf.maxSearchNodes [startN] [(startN, ⟨0, startH, 0 + startH, none⟩)] []
    (startN, startH)

/-- `aStar(request)`: destructure with defaults, resolve an unwalkable goal
(fail, or ring-search and retarget when partial paths are allowed), then
search. -/
def aStar (pf : PF) (cm : CMState) (req : PathRequest) : PathResult :=
  let maxD := req.maxDistance.getD 100
  let allowPartial := req.allowPartialPath.getD true
  let et := req.entityType.getD EntityType.ground
  let startN := worldToNode pf.nodeSize req.startX req.startZ
  let goalN := worldToNode pf.nodeSize req.goalX req.goalZ
  if isNodeWalkable pf.cellSize cm pf.nodeSize goalN.1 goalN.2
      req.entityRadius et then
    aStarSearch pf cm req.entityRadius maxD et allowPartial startN goalN
  else if !allowPartial then ⟨false, [], 0, 0⟩
  else
    match findNearestWalkableNode pf.cellSize cm pf.nodeSize goalN.1 goalN.2
      req.entityRadius et 10 with
    | some ng => aStarSearch pf cm req.entityRadius maxD et allowPartial startN ng
    | none => ⟨false, [], 0, 0⟩

/-- `getCacheKey`: the template string
`"⌊startX⌋,⌊startZ⌋-⌊goalX⌋,⌊goalZ⌋-entityRadius-entityType"`, modelled by
the tuple it is built from (the formatting is injective on it). -/
def getCacheKey (req : PathRequest) :
    (ℤ × ℤ × ℤ × ℤ) × ℚ × Option EntityType :=
  ((qfloor req.startX, qfloor req.startZ, qfloor req.goalX, qfloor req.goalZ),
    req.entityRadius, req.entityType)

/-- The `pathCache` map: key to cached result and timestamp. -/
abbrev PathCache : Type :=
  List (((ℤ × ℤ × ℤ × ℤ) × ℚ × Option EntityType) × (PathResult × ℚ))

/-- `findPath(request)` at time `now` (`Date.now()`), returning the result
and the updated cache. -/
def findPath (pf : PF) (cm : CMState) (cache : PathCache) (req : PathRequest)
    (now : ℚ) : PathResult × PathCache :=
  let key := getCacheKey req
  match mget cache key with
  | some e =>
    if now - e.2 < pf.cacheTimeout then (e.1, cache)
    else
      let result := aStar pf cm req
      (result, mset cache key (result, now))
  | none =>
    let result := aStar pf cm req
    (result, mset cache key (result, now))

/-- Does a swept query between the waypoints report no hit?
(`smoothPath` calls `checkSweptCollision` with no exclusions.) -/
def sweptOk (ccs : ℚ) (cm : CMState) (r : ℚ) (a b : ℚ × ℚ) : Bool :=
  !(checkSweptCollision ccs cm a.1 a.2 b.1 b.2 r none).isSome

/-- Inner loop of `smoothPath`: starting from `i = cur + 2`, extend while the
swept query from `path[cur]` succeeds; on the first failure (or the end of
the path) the last successful index `i - 1` is the chosen `farthest`
(initially `cur + 1`). -/
def farthestAux (ccs : ℚ) (cm : CMState) (r : ℚ) (path : List (ℚ × ℚ))
    (cur : ℕ) (i : ℕ) : ℕ :=
  if h : i < path.length ∧
      sweptOk ccs cm r (path.getD cur (0, 0)) (path.getD i (0, 0)) = true then
    farthestAux ccs cm r path cur (i + 1)
  else i - 1
termination_by path.length - i
decreasing_by
  rcases h with ⟨h1, _⟩
  omega

theorem farthestAux_ge (ccs : ℚ) (cm : CMState) (r : ℚ)
    (path : List (ℚ × ℚ)) (cur : ℕ) (i : ℕ) :
    i - 1 ≤ farthestAux ccs cm r path cur i := by
  generalize hn : path.length - i = n
  induction n generalizing i with
  | zero =>
    rw [farthestAux]
    rw [dif_neg (by
      rintro ⟨h1, _⟩
      omega)]
  | succ n ih =>
    rw [farthestAux]
    by_cases h : i < path.length ∧
        sweptOk ccs cm r (path.getD cur (0, 0)) (path.getD i (0, 0)) = true
    · rw [dif_pos h]
      have h2 := ih (i + 1) (by omega)
      omega
    · rw [dif_neg h]

theorem farthestAux_le (ccs : ℚ) (cm : CMState) (r : ℚ)
    (path : List (ℚ × ℚ)) (cur : ℕ) (i : ℕ) (hi : i ≤ path.length) :
    farthestAux ccs cm r path cur i ≤ path.length - 1 := by
  generalize hn : path.length - i = n
  induction n generalizing i with
  | zero =>
    rw [farthestAux]
    rw [dif_neg (by
      rintro ⟨h1, _⟩
      omega)]
    omega
  | succ n ih =>
    rw [farthestAux]
    by_cases h : i < path.length ∧
        sweptOk ccs cm r (path.getD cur (0, 0)) (path.getD i (0, 0)) = true
    · rw [dif_pos h]
      exact ih (i + 1) (by omega) (by omega)
    · rw [dif_neg h]
      omega

theorem farthestAux_ok (ccs : ℚ) (cm : CMState) (r : ℚ)
    (path : List (ℚ × ℚ)) (cur : ℕ) (i : ℕ) (hi1 : 1 ≤ i)
    (hle : i ≤ farthestAux ccs cm r path cur i) :
    sweptOk ccs cm r (path.getD cur (0, 0))
      (path.getD (farthestAux ccs cm r path cur i) (0, 0)) = true := by
  generalize hn : path.length - i = n
  induction n generalizing i with
  | zero =>
    exfalso
    rw [farthestAux, dif_neg (by
      rintro ⟨h1, _⟩
      omega)] at hle
    omega
  | succ n ih =>
    by_cases h : i < path.length ∧
        sweptOk ccs cm r (path.getD cur (0, 0)) (path.getD i (0, 0)) = true
    · rw [farthestAux, dif_pos h]
      rw [farthestAux, dif_pos h] at hle
      by_cases h2 : i + 1 ≤ farthestAux ccs cm r path cur (i + 1)
      · exact ih (i + 1) (by omega) h2 (by omega)
      · have h3 := farthestAux_ge ccs cm r path cur (i + 1)
        have h4 : farthestAux ccs cm r path cur (i + 1) = i := by omega
        rw [h4]
        exact h.2
    · exfalso
      rw [farthestAux, dif_neg h] at hle
      omega

theorem farthestAux_all (ccs : ℚ) (cm : CMState) (r : ℚ)
    (path : List (ℚ × ℚ)) (cur : ℕ) (i : ℕ) (hi : i ≤ path.length)
    (hall : ∀ j : ℕ, i ≤ j → j < path.length →
      sweptOk ccs cm r (path.getD cur (0, 0)) (path.getD j (0, 0)) = true) :
    farthestAux ccs cm r path cur i = path.length - 1 := by
  generalize hn : path.length - i = n
  induction n generalizing i with
  | zero =>
    rw [farthestAux, dif_neg (by
      rintro ⟨h1, _⟩
      omega)]
    omega
  | succ n ih =>
    have hlt : i < path.length := by omega
    rw [farthestAux, dif_pos ⟨hlt, hall i (le_refl i) hlt⟩]
    exact ih (i + 1) (by omega)
      (fun j hj1 hj2 => hall j (by omega) hj2) (by omega)

/-- Outer loop of `smoothPath`: from the accepted index `cur`, push
`path[farthest]` and continue from there until the end of the path. -/
def smoothAux (ccs : ℚ) (cm : CMState) (r : ℚ) (path : List (ℚ × ℚ))
    (cur : ℕ) : List (ℚ × ℚ) :=
  if h : cur < path.length - 1 then
    path.getD (farthestAux ccs cm r path cur (cur + 2)) (0, 0)
      :: smoothAux ccs cm r path (farthestAux ccs cm r path cur (cur + 2))
  else []
termination_by path.length - cur
decreasing_by
  have h2 := farthestAux_ge ccs cm r path cur (cur + 2)
  omega

/-- `smoothPath(path, entityRadius)`. -/
def smoothPath (ccs : ℚ) (cm : CMState) (path : List (ℚ × ℚ)) (r : ℚ) :
    List (ℚ × ℚ) :=
  if path.length ≤ 2 then path
  else path.getD 0 (0, 0) :: smoothAux ccs cm r path 0

/-! ## Claim C4 -/

/-- The relation the simplified path actually satisfies between consecutive
waypoints: either they were adjacent in the raw path (the unchecked
`farthest = current + 1` case) or the swept query between them reported no
hit. -/
def smoothStepOk (ccs : ℚ) (cm : CMState) (r : ℚ) (path : List (ℚ × ℚ))
    (a b : ℚ × ℚ) : Prop :=
  (∃ i : ℕ, i + 1 < path.length ∧ path.getD i (0, 0) = a ∧
    path.getD (i + 1) (0, 0) = b) ∨
  sweptOk ccs cm r a b = true

theorem smoothAux_chain (ccs : ℚ) (cm : CMState) (r : ℚ)
    (path : List (ℚ × ℚ)) :
    ∀ n cur : ℕ, path.length - cur ≤ n → cur < path.length →
      List.Chain' (smoothStepOk ccs cm r path)
        (path.getD cur (0, 0) :: smoothAux ccs cm r path cur) := by
  intro n
  induction n with
  | zero =>
    intro cur h1 h2
    omega
  | succ n ih =>
    intro cur hn hcur
    rw [smoothAux]
    by_cases h : cur < path.length - 1
    · rw [dif_pos h]
      set far := farthestAux ccs cm r path cur (cur + 2) with hfar
      have hge : cur + 1 ≤ far := by
        have := farthestAux_ge ccs cm r path cur (cur + 2)
        omega
      have hple : far ≤ path.length - 1 :=
        farthestAux_le ccs cm r path cur (cur + 2) (by omega)
      have hflt : far < path.length := by omega
      rw [List.chain'_cons]
      constructor
      · by_cases hcase : far = cur + 1
        · exact Or.inl ⟨cur, by omega, rfl, by rw [hcase]⟩
        · refine Or.inr ?_
          have hge2 : cur + 2 ≤ far := by omega
          have hok := farthestAux_ok ccs cm r path cur (cur + 2)
            (by omega) (by omega)
          rw [← hfar] at hok
          exact hok
      · exact ih far (by omega) hflt
    · rw [dif_neg h]
      exact List.chain'_singleton _

/-- Demo pathfinding configuration (source defaults: collision cell size 8,
node size 1, 1000 search nodes, 5000ms cache timeout). -/
def pfC : PF := ⟨8, 1, 1000, 5000⟩

/-- A small tree standing on the diagonal between two walkable node
centers. -/
def obsT : CollisionBounds := ⟨"t1", ObjType.tree, 1, 0, 1, 3/10, 2⟩

def cmT : CMState := addCollisionObject 8 CMState.empty obsT

def reqT : PathRequest := ⟨"r", 1/2, 1/2, 3/2, 3/2, 3/10, none, none, none⟩

/-- C4 counterexample: with a tree of radius 0.3 at (1, 1), the request from
(0.5, 0.5) to (1.5, 1.5) with entity radius 0.3 succeeds with the two-point
diagonal path (both node centers are walkable), `smoothPath` returns it
unchanged, yet the swept query between its only pair of consecutive
waypoints reports a hit (the sample at t = 1/3 lies 0.236 from the tree,
closer than 0.3 + 0.3).  So "checkSweptCollision between each pair of
consecutive waypoints of the simplified path reports no hit" fails. -/
theorem C4_counterexample :
    (findPath pfC cmT [] reqT 0).1.found = true ∧
    (findPath pfC cmT [] reqT 0).1.path = [(1/2, 1/2), (3/2, 3/2)] ∧
    smoothPath 8 cmT [(1/2, 1/2), (3/2, 3/2)] (3/10) = [(1/2, 1/2), (3/2, 3/2)] ∧
    (checkSweptCollision 8 cmT (1/2) (1/2) (3/2) (3/2) (3/10) none).isSome
      = true := by
  refine ⟨by decide, by decide, by decide, by decide⟩

/-- C4 (amended): every pair of consecutive waypoints of a simplified path is
either a pair that was already adjacent in the raw path (`smoothPath` never
checks the segment to the immediately next waypoint) or a pair whose swept
query reports no hit. -/
theorem C4_smooth_amended (ccs : ℚ) (cm : CMState) (path : List (ℚ × ℚ))
    (r : ℚ) :
    List.Chain' (smoothStepOk ccs cm r path) (smoothPath ccs cm path r) := by
  unfold smoothPath
  by_cases hlen : path.length ≤ 2
  · rw [if_pos hlen]
    match path, hlen with
    | [], _ => exact List.chain'_nil
    | [a], _ => exact List.chain'_singleton _
    | [a, b], _ =>
      rw [List.chain'_cons]
      exact ⟨Or.inl ⟨0, by simp, rfl, rfl⟩, List.chain'_singleton _⟩
  · rw [if_neg hlen]
    exact smoothAux_chain ccs cm r path path.length 0 (by omega) (by omega)

/-! ## Claim C7 -/

/-- C7: if every swept query from an earlier to a later waypoint of the raw
path reports no hit, `smoothPath` collapses the path to its first and last
waypoints. -/
theorem C7_straight_path (ccs : ℚ) (cm : CMState) (path : List (ℚ × ℚ))
    (r : ℚ) (h2 : 2 ≤ path.length)
    (hall : ∀ j : ℕ, j < path.length → ∀ i : ℕ, i < j →
      sweptOk ccs cm r (path.getD i (0, 0)) (path.getD j (0, 0)) = true) :
    smoothPath ccs cm path r
      = [path.getD 0 (0, 0), path.getD (path.length - 1) (0, 0)] := by
  unfold smoothPath
  by_cases hlen : path.length ≤ 2
  · rw [if_pos hlen]
    have hlen2 : path.length = 2 := by omega
    match path, hlen2 with
    | [a, b], _ => rfl
  · rw [if_neg hlen]
    have hfar : farthestAux ccs cm r path 0 2 = path.length - 1 :=
      farthestAux_all ccs cm r path 0 2 (by omega)
        (fun j hj1 hj2 => hall j hj2 0 (by omega))
    rw [smoothAux, dif_pos (by omega : (0 : ℕ) < path.length - 1), hfar,
      smoothAux, dif_neg (by omega : ¬ (path.length - 1 < path.length - 1))]

/-- Raw path for the C7 witness: three collinear waypoints in an empty
world. -/
def path3 : List (ℚ × ℚ) := [(0, 0), (5, 5), (9, 9)]

/-- C7 witness: in an empty world the three-point diagonal path simplifies to
its endpoints. -/
theorem C7_witness :
    smoothPath 8 CMState.empty path3 (1/2) = [(0, 0), (9, 9)] := by
  have h := C7_straight_path 8 CMState.empty path3 (1/2) (by decide) (by decide)
  rw [h]
  rfl

/-! ## Claim C9 -/

/-- C9 counterexample: the diagonal step cost is the literal 1.414, which is
not the square root of 2. -/
theorem C9_counterexample :
    ((getMoveCost 0 0 1 1 EntityType.ground : ℚ) : ℝ) ≠ Real.sqrt 2 := by
  intro h
  have h2 : ((getMoveCost 0 0 1 1 EntityType.ground : ℚ) : ℝ)^2 = 2 := by
    rw [h]
    exact Real.sq_sqrt (by norm_num)
  have h3 : (getMoveCost 0 0 1 1 EntityType.ground : ℚ) = 1.414 := by decide
  rw [h3] at h2
  norm_num at h2

/-- C9 (amended): for each 8-connected neighbor step the cost is the
approximation 1.414 (not √2) for diagonal steps and 1 for orthogonal ones,
times a movement-class factor: climbing pays 0.8 of the base (strictly
cheaper than ground), flying pays the unmodified base. -/
theorem C9_move_cost_amended (fx fz : ℤ) (nb : ℤ × ℤ) (et : EntityType)
    ( _hnb : nb ∈ getNeighbors fx fz) :
    getMoveCost fx fz nb.1 nb.2 et =
      (if (nb.1 - fx).natAbs = 1 ∧ (nb.2 - fz).natAbs = 1 then (1.414 : ℚ)
        else 1)
        * (if et = EntityType.climbing then 0.8 else 1) ∧
    getMoveCost fx fz nb.1 nb.2 EntityType.climbing
      < getMoveCost fx fz nb.1 nb.2 EntityType.ground ∧
    getMoveCost fx fz nb.1 nb.2 EntityType.flying
      = getMoveCost fx fz nb.1 nb.2 EntityType.ground := by
  refine ⟨?_, ?_, ?_⟩
  · cases et <;>
      by_cases hd : (nb.1 - fx).natAbs = 1 ∧ (nb.2 - fz).natAbs = 1 <;>
      simp [getMoveCost, hd] <;> norm_num
  · by_cases hd : (nb.1 - fx).natAbs = 1 ∧ (nb.2 - fz).natAbs = 1 <;>
      simp [getMoveCost, hd] <;> norm_num
  · by_cases hd : (nb.1 - fx).natAbs = 1 ∧ (nb.2 - fz).natAbs = 1 <;>
      simp [getMoveCost, hd]

/-- C9 witness: the amended statement at the diagonal neighbor (1, 1) of the
origin, for the ground class. -/
theorem C9_witness :
    getMoveCost 0 0 1 1 EntityType.ground
      = (1.414 : ℚ) * 1 ∧
    getMoveCost 0 0 1 1 EntityType.climbing
      < getMoveCost 0 0 1 1 EntityType.ground := by
  have h := C9_move_cost_amended 0 0 (1, 1) EntityType.ground (by decide)
  refine ⟨?_, h.2.1⟩
  have h1 := h.1
  rw [if_pos (by decide), if_neg (by decide)] at h1
  exact h1

/-! ## Claim C6 -/

/-- C6: when the goal cell is unwalkable for the request's radius and class
and no fresh cache entry short-circuits the search, `findPath` returns the
value `{found := false, path := [], length := 0, cost := 0}` (the embedding
is a total function: no exception exists to be thrown): directly when
partial paths are disallowed, and likewise when they are allowed but the
expanding ring search up to its maximum radius 10 finds no walkable cell. -/
theorem C6_unreachable_goal (pf : PF) (cm : CMState) (cache : PathCache)
    (req : PathRequest) (now : ℚ)
    (hcache : ∀ e : PathResult × ℚ, mget cache (getCacheKey req) = some e →
      ¬ (now - e.2 < pf.cacheTimeout))
    (hgoal : isNodeWalkable pf.cellSize cm pf.nodeSize
      (worldToNode pf.nodeSize req.goalX req.goalZ).1
      (worldToNode pf.nodeSize req.goalX req.goalZ).2
      req.entityRadius (req.entityType.getD EntityType.ground) = false) :
    (req.allowPartialPath = some false →
      (findPath pf cm cache req now).1 = ⟨false, [], 0, 0⟩) ∧
    (req.allowPartialPath.getD true = true →
      findNearestWalkableNode pf.cellSize cm pf.nodeSize
        (worldToNode pf.nodeSize req.goalX req.goalZ).1
        (worldToNode pf.nodeSize req.goalX req.goalZ).2
        req.entityRadius (req.entityType.getD EntityType.ground) 10 = none →
      (findPath pf cm cache req now).1 = ⟨false, [], 0, 0⟩) := by
  have hfp : (findPath pf cm cache req now).1 = aStar pf cm req := by
    simp only [findPath]
    cases hm : mget cache (getCacheKey req) with
    | none => rfl
    | some e =>
      show (if now - e.2 < pf.cacheTimeout then (e.1, cache)
        else (aStar pf cm req,
          mset cache (getCacheKey req) (aStar pf cm req, now))).1
        = aStar pf cm req
      rw [if_neg (hcache e hm)]
  rw [hfp]
  constructor
  · intro hap
    simp [aStar, hgoal, hap]
  · intro hap hnone
    simp [aStar, hgoal, hap, hnone]

/-- Pathfinding configuration for the C6 witness: a huge collision cell so
the single boulder occupies few grid cells. -/
def pf6 : PF := ⟨200, 1, 1000, 5000⟩

/-- A boulder of radius 50 centered at the origin, swallowing the goal and
the whole ring-search area. -/
def obsBig : CollisionBounds := ⟨"big", ObjType.rock, 0, 0, 0, 50, 10⟩

def cmBig : CMState := addCollisionObject 200 CMState.empty obsBig

def reqA : PathRequest := ⟨"r", 30, 30, 1/2, 1/2, 1/2, none, some false, none⟩

def reqB : PathRequest := ⟨"r", 30, 30, 1/2, 1/2, 1/2, none, some true, none⟩

/-- C6 witness: both branches of the theorem at a concrete blocked goal. -/
theorem C6_witness :
    (findPath pf6 cmBig [] reqA 0).1 = ⟨false, [], 0, 0⟩ ∧
    (findPath pf6 cmBig [] reqB 0).1 = ⟨false, [], 0, 0⟩ :=
  ⟨(C6_unreachable_goal pf6 cmBig [] reqA 0
      (fun e he => Option.noConfusion he) (by decide)).1 rfl,
    (C6_unreachable_goal pf6 cmBig [] reqB 0
      (fun e he => Option.noConfusion he) (by decide)).2 rfl (by decide)⟩

/-! ## Claim C10 -/

def req0C : PathRequest := ⟨"r", 1/2, 1/2, 5/2, 1/2, 1/2, some 0, some false, none⟩

def req1C : PathRequest := ⟨"r", 1/2, 1/2, 5/2, 1/2, 1/2, some 50, some false, none⟩

def req2C : PathRequest :=
  ⟨"r", 1/2, 1/2, 5/2, 1/2, 1/2, some 100, some false, none⟩

/-- C10 counterexample: a cache entry stored by an earlier call (`req0C`,
`maxDistance = 0`, which fails) is returned by a first call at t = 4999 (a
cache hit, which does NOT refresh the timestamp), but a second call only 2ms
later — within `cacheTimeout` of the first, with the same cache key,
differing from the first request only in `maxDistance` — finds the entry
stale (age 5001 ≥ 5000), recomputes, and returns a different result
(`found = true`).  So the second call does not return the identical cached
PathResult. -/
theorem C10_counterexample :
    getCacheKey req1C = getCacheKey req2C ∧
    ((5001 : ℚ) - 4999 < pfC.cacheTimeout) ∧
    (findPath pfC CMState.empty
      ((findPath pfC CMState.empty [] req0C 0).2) req1C 4999).1.found
        = false ∧
    (findPath pfC CMState.empty
      ((findPath pfC CMState.empty
        ((findPath pfC CMState.empty [] req0C 0).2) req1C 4999).2)
      req2C 5001).1.found = true := by
  refine ⟨by decide, by decide, by decide, by decide⟩

/-- C10 (amended): the cache key is built only from the floors of the four
endpoint coordinates, the entity radius and the entity type.  When the FIRST
call is a cache miss (no fresh entry for its key), any second call within
`cacheTimeout` of it whose request agrees on those key fields — so differing
at most in `maxDistance`, `allowPartialPath`, `id`, or sub-unit coordinate
changes — returns the identical `PathResult` object the first call returned,
regardless of those differing fields and even of collision-state changes.
(When the first call is itself a cache hit, its entry's old timestamp can
expire between the calls, and the guarantee fails: see the
counterexample.) -/
theorem C10_cache_amended (pf : PF) (cm1 cm2 : CMState) (cache : PathCache)
    (req1 req2 : PathRequest) (t1 t2 : ℚ)
    (hmiss : ∀ e : PathResult × ℚ, mget cache (getCacheKey req1) = some e →
      ¬ (t1 - e.2 < pf.cacheTimeout))
    (hsx : qfloor req1.startX = qfloor req2.startX)
    (hsz : qfloor req1.startZ = qfloor req2.startZ)
    (hgx : qfloor req1.goalX = qfloor req2.goalX)
    (hgz : qfloor req1.goalZ = qfloor req2.goalZ)
    (hr : req1.entityRadius = req2.entityRadius)
    (ht : req1.entityType = req2.entityType)
    (hdt : t2 - t1 < pf.cacheTimeout) :
    (findPath pf cm2 (findPath pf cm1 cache req1 t1).2 req2 t2).1
      = (findPath pf cm1 cache req1 t1).1 := by
  have hkey : getCacheKey req2 = getCacheKey req1 := by
    unfold getCacheKey
    rw [hsx, hsz, hgx, hgz, hr, ht]
  have hc1 : findPath pf cm1 cache req1 t1 =
      (aStar pf cm1 req1,
        mset cache (getCacheKey req1) (aStar pf cm1 req1, t1)) := by
    simp only [findPath]
    cases hm : mget cache (getCacheKey req1) with
    | none => rfl
    | some e =>
      show (if t1 - e.2 < pf.cacheTimeout then (e.1, cache)
        else (aStar pf cm1 req1,
          mset cache (getCacheKey req1) (aStar pf cm1 req1, t1)))
        = (aStar pf cm1 req1,
          mset cache (getCacheKey req1) (aStar pf cm1 req1, t1))
      rw [if_neg (hmiss e hm)]
  rw [hc1]
  show (findPath pf cm2
    (mset cache (getCacheKey req1) (aStar pf cm1 req1, t1)) req2 t2).1
      = aStar pf cm1 req1
  simp only [findPath]
  rw [hkey, mget_mset_self]
  show (if t2 - t1 < pf.cacheTimeout then
      (aStar pf cm1 req1,
        mset cache (getCacheKey req1) (aStar pf cm1 req1, t1))
    else (aStar pf cm2 req2,
      mset (mset cache (getCacheKey req1) (aStar pf cm1 req1, t1))
        (getCacheKey req1) (aStar pf cm2 req2, t2))).1
    = aStar pf cm1 req1
  rw [if_pos hdt]

/-- C10 witness: two miss-then-hit calls differing only in `maxDistance`,
1ms apart, on the empty world. -/
theorem C10_witness :
    (findPath pfC CMState.empty
      (findPath pfC CMState.empty [] req1C 0).2 req2C 1).1
      = (findPath pfC CMState.empty [] req1C 0).1 :=
  C10_cache_amended pfC CMState.empty CMState.empty [] req1C req2C 0 1
    (fun e he => Option.noConfusion he) rfl rfl rfl rfl rfl rfl (by decide)
